import Mathlib

/-!
Verification of the regression-test harness in `src/regressions.py`.

The harness discovers numerically named case directories, stages a working
copy of each case under the results root, runs the subject binary there,
compares reference artifacts (`output.log`, `regression/*`) against produced
files with `difflib.unified_diff`, and writes a summary report plus a diff log.

Embedding conventions:
- A directory tree is an `Entry`; file contents are modelled as the list of
  lines that Python's `readlines()` would return (each line keeping its
  terminator).
- `difflib.unified_diff` (Python standard library, called at
  `regressions.py:117`) is modelled by `unifiedDiff` below, translating
  CPython's `SequenceMatcher` (`find_longest_match`, `get_matching_blocks`,
  `get_opcodes`, `get_grouped_opcodes` with context `n = 3`) and the
  unified-format renderer with `lineterm=''`.  Junk handling is omitted:
  `unified_diff` passes `isjunk=None`, and `autojunk` only alters behaviour
  for sequences of at least 200 lines.  The queue of `get_matching_blocks`
  is run on fuel `len(a) + len(b) + 1`, an upper bound on the number of
  queue pops (each pop strictly decreases the total size of queued regions).
- Python exceptions are `Except.error`; `sys.exit(1)` on a missing source
  directory is the `SourceUnavailable` error of `runHarness`.
- The subject binary is an arbitrary function from the staged working tree
  to an `ExecOutcome` (exit code plus resulting tree, or a launch failure).
-/

/-- Tags of `difflib.SequenceMatcher.get_opcodes`. -/
inductive Tag where
  | replace
  | delete
  | insert
  | equal
deriving DecidableEq

/-- One opcode `(tag, i1, i2, j1, j2)` of `SequenceMatcher.get_opcodes`. -/
structure Opcode where
  tag : Tag
  i1 : Nat
  i2 : Nat
  j1 : Nat
  j2 : Nat
deriving DecidableEq

/-- `SequenceMatcher.__chain_b`: positions of line `x` in `b`, ascending. -/
def b2j (b : List String) (x : String) : List Nat :=
  (List.range b.length).filter (fun j => b.getD j "" == x)

/-- The running best match `(besti, bestj, bestsize)` of `find_longest_match`. -/
structure FlmSt where
  besti : Nat
  bestj : Nat
  bestsize : Nat

/-- Inner loop of `find_longest_match` over `b2j[a[i]]` for one row `i`:
`j2l` is the previous row's `j2len`, `new` the row under construction. -/
def flmRow (a b : List String) (blo bhi i : Nat) (j2l : Nat → Nat) :
    List Nat → (Nat → Nat) → FlmSt → (Nat → Nat) × FlmSt
  | [], new, st => (new, st)
  | j :: js, new, st =>
    if j < blo then flmRow a b blo bhi i j2l js new st
    else if bhi ≤ j then (new, st)
    else
      let k := (if j = 0 then 0 else j2l (j - 1)) + 1
      let new2 := fun x => if x = j then k else new x
      let st2 := if st.bestsize < k then FlmSt.mk (i + 1 - k) (j + 1 - k) k else st
      flmRow a b blo bhi i j2l js new2 st2

/-- Outer loop of `find_longest_match` over rows `i = alo, …`: `n` rows left. -/
def flmRows (a b : List String) (blo bhi : Nat) :
    Nat → Nat → (Nat → Nat) × FlmSt → (Nat → Nat) × FlmSt
  | _, 0, s => s
  | i, n + 1, s =>
    let s2 := flmRow a b blo bhi i s.1 (b2j b (a.getD i "")) (fun _ => 0) s.2
    flmRows a b blo bhi (i + 1) n s2

/-- Backward extension loop of `find_longest_match`, structurally recursive on
the exact iteration bound `fuel = bi` (each step requires `alo < bi` and
decrements `bi`, so `bi` iterations always suffice). -/
def extBF (a b : List String) (alo blo : Nat) : Nat → Nat → Nat → Nat → Nat × Nat × Nat
  | 0, bi, bj, sz => (bi, bj, sz)
  | fuel + 1, bi, bj, sz =>
    if alo < bi ∧ blo < bj ∧ a.getD (bi - 1) "" == b.getD (bj - 1) "" then
      extBF a b alo blo fuel (bi - 1) (bj - 1) (sz + 1)
    else (bi, bj, sz)

/-- Backward extension loop of `find_longest_match`. -/
def extB (a b : List String) (alo blo : Nat) (bi bj sz : Nat) : Nat × Nat × Nat :=
  extBF a b alo blo bi bi bj sz

/-- Forward extension loop of `find_longest_match`, structurally recursive on
the exact iteration bound `fuel = ahi - (bi + sz)` (each step requires
`bi + sz < ahi` and increments `sz`). -/
def extFF (a b : List String) (ahi bhi : Nat) : Nat → Nat → Nat → Nat → Nat
  | 0, _, _, sz => sz
  | fuel + 1, bi, bj, sz =>
    if bi + sz < ahi ∧ bj + sz < bhi ∧ a.getD (bi + sz) "" == b.getD (bj + sz) "" then
      extFF a b ahi bhi fuel bi bj (sz + 1)
    else sz

/-- Forward extension loop of `find_longest_match`. -/
def extF (a b : List String) (ahi bhi : Nat) (bi bj sz : Nat) : Nat :=
  extFF a b ahi bhi (ahi - (bi + sz)) bi bj sz

/-- `SequenceMatcher.find_longest_match(alo, ahi, blo, bhi)`. -/
def flm (a b : List String) (alo ahi blo bhi : Nat) : Nat × Nat × Nat :=
  let s := flmRows a b blo bhi alo (ahi - alo) (fun _ => 0, FlmSt.mk alo blo 0)
  let e := extB a b alo blo s.2.besti s.2.bestj s.2.bestsize
  (e.1, e.2.1, extF a b ahi bhi e.1 e.2.1 e.2.2)

/-- Queue loop of `get_matching_blocks` (LIFO pop, as in CPython), on fuel. -/
def mbLoop (a b : List String) :
    Nat → List (Nat × Nat × Nat × Nat) → List (Nat × Nat × Nat) → List (Nat × Nat × Nat)
  | 0, _, acc => acc
  | _ + 1, [], acc => acc
  | fuel + 1, (alo, ahi, blo, bhi) :: rest, acc =>
    let m := flm a b alo ahi blo bhi
    if m.2.2 = 0 then mbLoop a b fuel rest acc
    else
      mbLoop a b fuel
        ((if m.1 + m.2.2 < ahi ∧ m.2.1 + m.2.2 < bhi then
            [(m.1 + m.2.2, ahi, m.2.1 + m.2.2, bhi)] else []) ++
         (if alo < m.1 ∧ blo < m.2.1 then [(alo, m.1, blo, m.2.1)] else []) ++ rest)
        (acc ++ [m])

/-- Lexicographic order on matching blocks, as Python's `list.sort()` on triples. -/
def blockLe (x y : Nat × Nat × Nat) : Prop :=
  x.1 < y.1 ∨ (x.1 = y.1 ∧ (x.2.1 < y.2.1 ∨ (x.2.1 = y.2.1 ∧ x.2.2 ≤ y.2.2)))

instance : DecidableRel blockLe := fun x y => by
  unfold blockLe
  infer_instance

instance : IsTotal (Nat × Nat × Nat) blockLe := by
  constructor
  intro x y
  unfold blockLe
  omega

instance : IsTrans (Nat × Nat × Nat) blockLe := by
  constructor
  intro x y z
  unfold blockLe
  omega

/-- Adjacent-block merging of `get_matching_blocks`; state `c` is `(i1, j1, k1)`. -/
def mergeAdj : List (Nat × Nat × Nat) → Nat × Nat × Nat → List (Nat × Nat × Nat) →
    List (Nat × Nat × Nat)
  | acc, c, [] => acc ++ (if c.2.2 ≠ 0 then [c] else [])
  | acc, c, x :: rest =>
    if c.1 + c.2.2 = x.1 ∧ c.2.1 + c.2.2 = x.2.1 then
      mergeAdj acc (c.1, c.2.1, c.2.2 + x.2.2) rest
    else mergeAdj (acc ++ (if c.2.2 ≠ 0 then [c] else [])) x rest

/-- `SequenceMatcher.get_matching_blocks`, ending with the `(la, lb, 0)` sentinel. -/
def matchingBlocks (a b : List String) : List (Nat × Nat × Nat) :=
  let la := a.length
  let lb := b.length
  let blocks := List.insertionSort blockLe (mbLoop a b (la + lb + 1) [(0, la, 0, lb)] [])
  mergeAdj [] (0, 0, 0) blocks ++ [(la, lb, 0)]

/-- Loop of `get_opcodes`, walking the matching blocks from `(i, j)`. -/
def opcodesLoop : Nat → Nat → List (Nat × Nat × Nat) → List Opcode
  | _, _, [] => []
  | i, j, (ai, bj, sz) :: rest =>
    (if i < ai ∧ j < bj then [Opcode.mk Tag.replace i ai j bj]
     else if i < ai then [Opcode.mk Tag.delete i ai j bj]
     else if j < bj then [Opcode.mk Tag.insert i ai j bj]
     else []) ++
    (if sz ≠ 0 then [Opcode.mk Tag.equal ai (ai + sz) bj (bj + sz)] else []) ++
    opcodesLoop (ai + sz) (bj + sz) rest

/-- `SequenceMatcher.get_opcodes`. -/
def getOpcodes (a b : List String) : List Opcode :=
  opcodesLoop 0 0 (matchingBlocks a b)

/-- `get_grouped_opcodes`: clipping of a leading equal opcode (context `n = 3`). -/
def adjStart (c : Opcode) : Opcode :=
  if c.tag = Tag.equal then
    Opcode.mk c.tag (max c.i1 (c.i2 - 3)) c.i2 (max c.j1 (c.j2 - 3)) c.j2
  else c

/-- `get_grouped_opcodes`: clipping of a trailing equal opcode (context `n = 3`). -/
def adjEnd (c : Opcode) : Opcode :=
  if c.tag = Tag.equal then
    Opcode.mk c.tag c.i1 (min c.i2 (c.i1 + 3)) c.j1 (min c.j2 (c.j1 + 3))
  else c

/-- Apply `f` to the last element of a list. -/
def mapLast (f : Opcode → Opcode) : List Opcode → List Opcode
  | [] => []
  | [c] => [f c]
  | c :: c2 :: rest => c :: mapLast f (c2 :: rest)

/-- `get_grouped_opcodes`: clip the first and last opcode if they are `equal`. -/
def adjustCodes (codes : List Opcode) : List Opcode :=
  mapLast adjEnd
    (match codes with
     | [] => []
     | c :: rest => adjStart c :: rest)

/-- One step of the group-building loop of `get_grouped_opcodes` (`nn = 6`). -/
def groupStep (st : List (List Opcode) × List Opcode) (c : Opcode) :
    List (List Opcode) × List Opcode :=
  if c.tag = Tag.equal ∧ 6 < c.i2 - c.i1 then
    (st.1 ++ [st.2 ++ [Opcode.mk Tag.equal c.i1 (min c.i2 (c.i1 + 3))
        c.j1 (min c.j2 (c.j1 + 3))]],
     [Opcode.mk Tag.equal (max c.i1 (c.i2 - 3)) c.i2 (max c.j1 (c.j2 - 3)) c.j2])
  else (st.1, st.2 ++ [c])

/-- `SequenceMatcher.get_grouped_opcodes(3)`: hunk groups of opcodes. -/
def getGroupedOpcodes (a b : List String) : List (List Opcode) :=
  let codes0 := getOpcodes a b
  let codes1 := if codes0 = [] then [Opcode.mk Tag.equal 0 1 0 1] else codes0
  let s := (adjustCodes codes1).foldl groupStep ([], [])
  s.1 ++
    (match s.2 with
     | [] => []
     | [g] => if g.tag = Tag.equal then [] else [[g]]
     | g1 :: g2 :: rest => [g1 :: g2 :: rest])

/-- Python slice `l[i:j]`. -/
def sliceList (l : List String) (i j : Nat) : List String :=
  (l.drop i).take (j - i)

/-- `difflib._format_range_unified`. -/
def fmtRange (start stop : Nat) : String :=
  let length := stop - start
  if length = 1 then toString (start + 1)
  else if length = 0 then toString start ++ "," ++ toString length
  else toString (start + 1) ++ "," ++ toString length

/-- Body lines contributed by one opcode of a hunk in `unified_diff`. -/
def tagLines (a b : List String) (c : Opcode) : List String :=
  match c.tag with
  | Tag.equal => (sliceList a c.i1 c.i2).map (fun l => " " ++ l)
  | Tag.replace =>
    (sliceList a c.i1 c.i2).map (fun l => "-" ++ l) ++
      (sliceList b c.j1 c.j2).map (fun l => "+" ++ l)
  | Tag.delete => (sliceList a c.i1 c.i2).map (fun l => "-" ++ l)
  | Tag.insert => (sliceList b c.j1 c.j2).map (fun l => "+" ++ l)

/-- One hunk of `unified_diff`: `@@` header plus body lines (`lineterm=''`). -/
def hunkOf (a b : List String) (g : List Opcode) : List String :=
  match g with
  | [] => []
  | first :: rest =>
    let last := (first :: rest).getLast (by simp)
    ("@@ -" ++ fmtRange first.i1 last.i2 ++ " +" ++ fmtRange first.j1 last.j2 ++ " @@") ::
      (first :: rest).flatMap (tagLines a b)

/-- `difflib.unified_diff(a, b, fromfile, tofile, lineterm='')` as the list of
yielded strings (`regressions.py:117-120`). -/
def unifiedDiff (fromfile tofile : String) (a b : List String) : List String :=
  match getGroupedOpcodes a b with
  | [] => []
  | g :: gs =>
    ("--- " ++ fromfile) :: ("+++ " ++ tofile) :: (g :: gs).flatMap (hunkOf a b)

/-- A node of the file-system model: a file (as its `readlines()` result) or
a directory listing. -/
inductive Entry where
  | file (lines : List String)
  | dir (entries : List (String × Entry))

/-- Look a name up in a directory listing. -/
def lookupEntry : List (String × Entry) → String → Option Entry
  | [], _ => none
  | (n, e) :: rest, name => if n = name then some e else lookupEntry rest name

/-- Child of a tree node by name. -/
def childOf (e : Entry) (name : String) : Option Entry :=
  match e with
  | Entry.file _ => none
  | Entry.dir es => lookupEntry es name

/-- Resolve a relative path (list of segments) in a tree. -/
def lookupPath (e : Entry) : List String → Option Entry
  | [] => some e
  | n :: ns =>
    match childOf e n with
    | none => none
    | some c => lookupPath c ns

/-- `os.path.exists` relative to a tree (true for files and directories). -/
def pathExists (e : Entry) (p : List String) : Bool :=
  (lookupPath e p).isSome

/-- `open(path).readlines()` relative to a tree; opening a directory or a
missing file raises. -/
def readLines (e : Entry) (p : List String) : Except String (List String) :=
  match lookupPath e p with
  | some (Entry.file ls) => Except.ok ls
  | some (Entry.dir _) => Except.error "IsADirectoryError"
  | none => Except.error "FileNotFoundError"

/-- `os.path.isdir` on an optional entry. -/
def isDirE : Option Entry → Bool
  | some (Entry.dir _) => true
  | _ => false

/-- Code-point lexicographic comparison of character lists, as Python
compares strings. -/
def charListLe : List Char → List Char → Bool
  | [], _ => true
  | _ :: _, [] => false
  | c :: cs, d :: ds =>
    if c.toNat < d.toNat then true
    else if d.toNat < c.toNat then false
    else charListLe cs ds

/-- Python string `<=` (code-point lexicographic), for `sorted(...)`. -/
def strLe (x y : String) : Prop := charListLe x.data y.data = true

instance : DecidableRel strLe := fun x y => by
  unfold strLe
  infer_instance

/-- `files_to_check` (`regressions.py:88-95`): `output.log` if it exists,
then every entry of the `regression/` subdirectory, sorted. -/
def filesToCheck (src : Entry) : List (List String) :=
  (if pathExists src ["output.log"] then [["output.log"]] else []) ++
    (match childOf src "regression" with
     | some (Entry.dir es) =>
       (List.insertionSort strLe (es.map Prod.fst)).map (fun f => ["regression", f])
     | _ => [])

/-- Render a relative path the way `os.path.join` builds it in the script. -/
def pathStr (p : List String) : String := String.intercalate "/" p

/-- Result of the comparison loop: missing files and accumulated diff lines. -/
structure CmpRes where
  missing : List (List String)
  diffs : List String

/-- The comparison loop (`regressions.py:105-121`) over `files_to_check`. -/
def compareFiles (d : String) (src dest : Entry) :
    List (List String) → Except String CmpRes
  | [] => Except.ok (CmpRes.mk [] [])
  | rel :: rest =>
    if pathExists dest rel then
      match readLines src rel with
      | Except.error e => Except.error e
      | Except.ok ref =>
        match readLines dest rel with
        | Except.error e => Except.error e
        | Except.ok new =>
          let diff := unifiedDiff ("Reference/" ++ d ++ "/" ++ pathStr rel)
            ("Result/" ++ d ++ "/" ++ pathStr rel) ref new
          match compareFiles d src dest rest with
          | Except.error e => Except.error e
          | Except.ok r => Except.ok (CmpRes.mk r.missing (diff ++ r.diffs))
    else
      match compareFiles d src dest rest with
      | Except.error e => Except.error e
      | Except.ok r => Except.ok (CmpRes.mk (rel :: r.missing) r.diffs)

/-- Result of `subprocess.run([binary], cwd=dest_dir, check=True, ...)`:
an exit code together with the working tree the binary leaves behind, or a
launch failure (binary missing, permission denied, OS error) with a message. -/
inductive ExecOutcome where
  | exits (code : Nat) (tree : Entry)
  | raises (msg : String)

/-- The classified outcome of one case. -/
inductive Outcome where
  | failCrash
  | execError (msg : String)
  | skip
  | pass
  | fail (missing : List (List String)) (diffs : List String)

/-- Processing of one staged case (`regressions.py:74-132`): run the binary in
the working tree `dest`, then compare against the source tree `src`. -/
def runCase (binary : Entry → ExecOutcome) (d : String) (src dest : Entry) :
    Except String (Outcome × Entry) :=
  match binary dest with
  | ExecOutcome.raises msg => Except.ok (Outcome.execError msg, dest)
  | ExecOutcome.exits code tree =>
    if code = 0 then
      let fs := filesToCheck src
      if fs = [] then Except.ok (Outcome.skip, tree)
      else
        match compareFiles d src tree fs with
        | Except.error e => Except.error e
        | Except.ok r =>
          if r.missing = [] ∧ r.diffs = [] then Except.ok (Outcome.pass, tree)
          else Except.ok (Outcome.fail r.missing r.diffs, tree)
    else Except.ok (Outcome.failCrash, tree)

/-- The line `res_file.write`s for one case. -/
def renderResLine (d : String) : Outcome → String
  | Outcome.failCrash => d ++ ": FAIL (Crash)\n"
  | Outcome.execError m => d ++ ": ERROR (" ++ m ++ ")\n"
  | Outcome.skip => d ++ ": SKIP (No reference logs found)\n"
  | Outcome.pass => d ++ ": PASS\n"
  | Outcome.fail _ _ => d ++ ": FAIL\n"

/-- The `====…====` banner written around a failing case in the diff log. -/
def banner : String := "========================================\n"

/-- The block `diff_file` receives for one case (`regressions.py:133-140`),
if any: only `FAIL` (mismatch/missing) cases write to the diff log. -/
def renderDiffEntry (d : String) : Outcome → Option String
  | Outcome.fail missing diffs =>
    some (banner ++ "FAIL: Case " ++ d ++ "\n" ++ banner ++
      (if missing = [] then ""
       else "Missing files: " ++ String.intercalate ", " (missing.map pathStr) ++ "\n\n") ++
      String.join diffs ++ "\n\n")
  | _ => none

/-- Staging (`regressions.py:67-69`): `rmtree` of any existing working
directory for case `d` under the results root, then `copytree` of the source
tree. -/
def stageCase (results : List (String × Entry)) (d : String) (src : Entry) :
    List (String × Entry) :=
  results.filter (fun p => p.1 != d) ++ [(d, src)]

/-- Replace the stored working tree of case `d` after execution. -/
def setEntry (results : List (String × Entry)) (d : String) (tree : Entry) :
    List (String × Entry) :=
  results.map (fun p => if p.1 = d then (d, tree) else p)

/-- State threaded through the main loop: the results root, the lines of
`test_result.txt`, and the blocks of `test_diffs.log`. -/
structure RunState where
  results : List (String × Entry)
  resLines : List String
  diffEntries : List String

/-- The main per-case loop (`regressions.py:62-140`).  An `Except.error` is an
unhandled exception: the run aborts and later cases are not processed. -/
def runCases (binary : Entry → ExecOutcome) (srcRoot : List (String × Entry)) :
    List String → RunState → Except String RunState
  | [], st => Except.ok st
  | d :: ds, st =>
    match lookupEntry srcRoot d with
    | none => Except.error "FileNotFoundError"
    | some srcTree =>
      let staged := stageCase st.results d srcTree
      let destTree :=
        match lookupEntry staged d with
        | some t => t
        | none => Entry.dir []
      match runCase binary d srcTree destTree with
      | Except.error e => Except.error e
      | Except.ok (oc, finalTree) =>
        runCases binary srcRoot ds
          (RunState.mk (setEntry staged d finalTree)
            (st.resLines ++ [renderResLine d oc])
            (st.diffEntries ++ (renderDiffEntry d oc).toList))

/-- Python `str.isdigit` restricted to ASCII digits (directory names). -/
def pyIsDigit (s : String) : Bool := !s.isEmpty && s.toList.all Char.isDigit

/-- `int(s)` for a digit string. -/
def strToNat (s : String) : Nat := s.toList.foldl (fun n c => n * 10 + (c.toNat - 48)) 0

/-- `sorted(..., key=int)` comparison. -/
def natKeyLe (x y : String) : Prop := strToNat x ≤ strToNat y

instance : DecidableRel natKeyLe := fun x y => by
  unfold natKeyLe
  infer_instance

instance : IsTotal String natKeyLe := by
  constructor
  intro x y
  unfold natKeyLe
  omega

instance : IsTrans String natKeyLe := by
  constructor
  intro x y z
  unfold natKeyLe
  omega

/-- Case discovery (`regressions.py:53`): numeric names, sorted by value.
Python's `sorted` is a stable sort; `insertionSort` is the stable sort of the
Mathlib library and agrees with it on every total preorder. -/
def discover (names : List String) : List String :=
  List.insertionSort natKeyLe (names.filter pyIsDigit)

/-- The whole run (`regressions.py:49-141`): `srcListing = none` models a
missing `REGRESSION_PATH` (`FileNotFoundError` from `os.listdir`, fatal). -/
def runHarness (binary : Entry → ExecOutcome)
    (srcListing : Option (List (String × Entry)))
    (results0 : List (String × Entry)) : Except String RunState :=
  match srcListing with
  | none => Except.error "SourceUnavailable"
  | some entries =>
    runCases binary entries (discover (entries.map Prod.fst)) (RunState.mk results0 [] [])

instance : IsTotal String strLe := by
  constructor
  intro x y
  obtain ⟨xs⟩ := x
  obtain ⟨ys⟩ := y
  show charListLe xs ys = true ∨ charListLe ys xs = true
  induction xs generalizing ys with
  | nil =>
    left
    rfl
  | cons c cs ih =>
    cases ys with
    | nil =>
      right
      rfl
    | cons d ds =>
      rw [charListLe, charListLe]
      by_cases h1 : c.toNat < d.toNat
      · left
        rw [if_pos h1]
      · by_cases h2 : d.toNat < c.toNat
        · right
          rw [if_pos h2]
        · rw [if_neg h1, if_neg h2, if_neg h2, if_neg h1]
          exact ih ds

instance : IsTrans String strLe := by
  constructor
  intro x y z
  obtain ⟨xs⟩ := x
  obtain ⟨ys⟩ := y
  obtain ⟨zs⟩ := z
  show charListLe xs ys = true → charListLe ys zs = true → charListLe xs zs = true
  induction xs generalizing ys zs with
  | nil =>
    intro _ _
    rfl
  | cons c cs ih =>
    intro h1 h2
    cases ys with
    | nil =>
      rw [charListLe] at h1
      simp at h1
    | cons d ds =>
      cases zs with
      | nil =>
        rw [charListLe] at h2
        simp at h2
      | cons e es =>
        rw [charListLe] at h1 h2 ⊢
        by_cases hcd : c.toNat < d.toNat
        · rw [if_pos hcd] at h1
          by_cases hde : d.toNat < e.toNat
          · rw [if_pos (show c.toNat < e.toNat by omega)]
          · rw [if_neg hde] at h2
            by_cases hed : e.toNat < d.toNat
            · rw [if_pos hed] at h2
              simp at h2
            · rw [if_pos (show c.toNat < e.toNat by omega)]
        · rw [if_neg hcd] at h1
          by_cases hdc : d.toNat < c.toNat
          · rw [if_pos hdc] at h1
            simp at h1
          · rw [if_neg hdc] at h1
            by_cases hde : d.toNat < e.toNat
            · rw [if_pos (show c.toNat < e.toNat by omega)]
            · rw [if_neg hde] at h2
              by_cases hed : e.toNat < d.toNat
              · rw [if_pos hed] at h2
                simp at h2
              · rw [if_neg hed] at h2
                rw [if_neg (show ¬c.toNat < e.toNat by omega),
                  if_neg (show ¬e.toNat < c.toNat by omega)]
                exact ih ds es h1 h2

/-! ### Specification-side definitions used by the verification -/

/-- Invariant of a `j2len` row: every positive entry `f j` records a genuine
common chain of length `f j` ending at `a`-index `i - 1` and `b`-index `j`,
lying inside `[blo, bhi)` on the `b` side and starting at or after `alo`. -/
def FlmChain (a b : List String) (alo blo bhi i : Nat) (f : Nat → Nat) : Prop :=
  ∀ j, 0 < f j → blo ≤ j ∧ j < bhi ∧ blo + f j ≤ j + 1 ∧ alo + f j ≤ i ∧
    ∀ t, t < f j → a.getD (i - 1 - t) "" = b.getD (j - t) ""

/-- Invariant of the running best match: in bounds and genuine. -/
def FlmBest (a b : List String) (alo blo bhi hi : Nat) (st : FlmSt) : Prop :=
  alo ≤ st.besti ∧ blo ≤ st.bestj ∧ st.besti + st.bestsize ≤ hi ∧
    st.bestj + st.bestsize ≤ bhi ∧
    ∀ t, t < st.bestsize → a.getD (st.besti + t) "" = b.getD (st.bestj + t) ""

/-- A genuine in-bounds matching block `(i, j, size)`. -/
def Genu (a b : List String) (x : Nat × Nat × Nat) : Prop :=
  x.1 + x.2.2 ≤ a.length ∧ x.2.1 + x.2.2 ≤ b.length ∧
    ∀ t, t < x.2.2 → a.getD (x.1 + t) "" = b.getD (x.2.1 + t) ""

/-- A well-formed queue region `(alo, ahi, blo, bhi)`. -/
def RegOK (a b : List String) (r : Nat × Nat × Nat × Nat) : Prop :=
  r.1 ≤ r.2.1 ∧ r.2.1 ≤ a.length ∧ r.2.2.1 ≤ r.2.2.2 ∧ r.2.2.2 ≤ b.length

/-- `s` is a sub-region of `r`. -/
def SubR (s r : Nat × Nat × Nat × Nat) : Prop :=
  r.1 ≤ s.1 ∧ s.2.1 ≤ r.2.1 ∧ r.2.2.1 ≤ s.2.2.1 ∧ s.2.2.2 ≤ r.2.2.2

/-- Two regions are separated: one lies before the other in both coordinates. -/
def SepR (x y : Nat × Nat × Nat × Nat) : Prop :=
  (x.2.1 ≤ y.1 ∧ x.2.2.2 ≤ y.2.2.1) ∨ (y.2.1 ≤ x.1 ∧ y.2.2.2 ≤ x.2.2.1)

/-- The region a matching block occupies. -/
def blkReg (x : Nat × Nat × Nat) : Nat × Nat × Nat × Nat :=
  (x.1, x.1 + x.2.2, x.2.1, x.2.1 + x.2.2)

/-- Block `x` ends before block `y` starts, in both coordinates. -/
def MonoB (x y : Nat × Nat × Nat) : Prop :=
  x.1 + x.2.2 ≤ y.1 ∧ x.2.1 + x.2.2 ≤ y.2.1

/-- The group-builder state has already committed a group, or holds a
non-equal opcode in the open group. -/
def BadSt (st : List (List Opcode) × List Opcode) : Prop :=
  st.1 ≠ [] ∨ ∃ c ∈ st.2, c.tag ≠ Tag.equal

/-- The diff contribution of one artifact: empty when the artifact is absent
from the working directory, otherwise the unified diff of reference against
produced lines. -/
def perArtifactDiff (d : String) (src dest : Entry) (rel : List String) : List String :=
  if pathExists dest rel then
    match readLines src rel, readLines dest rel with
    | Except.ok ref, Except.ok new =>
      unifiedDiff ("Reference/" ++ d ++ "/" ++ pathStr rel)
        ("Result/" ++ d ++ "/" ++ pathStr rel) ref new
    | _, _ => []
  else []

/-- The externally visible report of a run: the lines of `test_result.txt`
and the blocks of `test_diffs.log` (or the aborting exception). -/
def reportOf (r : Except String RunState) : Except String (List String × List String) :=
  r.map (fun st => (st.resLines, st.diffEntries))

/-! ### Concrete fixtures for witnesses -/

def crashBinary : Entry → ExecOutcome := fun t => ExecOutcome.exits 1 t

def okBinary : Entry → ExecOutcome := fun t => ExecOutcome.exits 0 t

def raiseBinary : Entry → ExecOutcome := fun _ => ExecOutcome.raises "Permission denied"

def case5Src : Entry := Entry.dir [("output.log", Entry.file ["ok\n"])]

def case5Out : Entry := Entry.dir [("output.log", Entry.file ["fail\n"])]

def case5Binary : Entry → ExecOutcome := fun _ => ExecOutcome.exits 0 case5Out

def c2Entries : List (String × Entry) :=
  [("10", Entry.dir []), ("9", Entry.dir []), ("2", Entry.dir []), ("README", Entry.dir [])]

def c4Src : Entry := Entry.dir [("data.txt", Entry.file ["d\n"])]

def c5Src : Entry := Entry.dir
  [("output.log", Entry.file ["a\n"]),
   ("regression", Entry.dir [("b.txt", Entry.file ["b\n"]), ("a.txt", Entry.file ["x\n"])])]

def c5Dest : Entry := Entry.dir
  [("output.log", Entry.file ["a\n"]),
   ("regression", Entry.dir [("b.txt", Entry.file ["B\n"]), ("a.txt", Entry.file ["x\n"])])]

def c10Src : Entry := Entry.dir [("regression", Entry.dir [("sub", Entry.dir [])])]

/-! ### Properties of `find_longest_match`: the result is a genuine match -/

lemma flmRow_inv (a b : List String) (alo blo bhi i : Nat) (j2l : Nat → Nat)
    (hprev : FlmChain a b alo blo bhi i j2l) (hi : alo ≤ i) :
    ∀ js new st, (∀ j ∈ js, b.getD j "" = a.getD i "") →
      FlmChain a b alo blo bhi (i + 1) new →
      FlmBest a b alo blo bhi (i + 1) st →
      FlmChain a b alo blo bhi (i + 1) (flmRow a b blo bhi i j2l js new st).1 ∧
        FlmBest a b alo blo bhi (i + 1) (flmRow a b blo bhi i j2l js new st).2 := by
  intro js
  induction js with
  | nil => intro new st _ hnew hst; exact ⟨hnew, hst⟩
  | cons j js ih =>
    intro new st hmem hnew hst
    have hmemj : b.getD j "" = a.getD i "" := hmem j (List.mem_cons_self _ _)
    have hmem' : ∀ x ∈ js, b.getD x "" = a.getD i "" :=
      fun x hx => hmem x (List.mem_cons_of_mem _ hx)
    rw [flmRow]
    by_cases h1 : j < blo
    · simp only [if_pos h1]
      exact ih new st hmem' hnew hst
    · simp only [if_neg h1]
      by_cases h2 : bhi ≤ j
      · simp only [if_pos h2]
        exact ⟨hnew, hst⟩
      · simp only [if_neg h2]
        push_neg at h1 h2
        have key : blo + ((if j = 0 then 0 else j2l (j - 1)) + 1) ≤ j + 1 ∧
            alo + ((if j = 0 then 0 else j2l (j - 1)) + 1) ≤ i + 1 ∧
            ∀ t, t < (if j = 0 then 0 else j2l (j - 1)) + 1 →
              a.getD (i - t) "" = b.getD (j - t) "" := by
          by_cases hj0 : j = 0
          · rw [if_pos hj0]
            refine ⟨by omega, by omega, ?_⟩
            intro t ht
            have ht0 : t = 0 := by omega
            subst ht0
            simpa using hmemj.symm
          · rw [if_neg hj0]
            by_cases hz : j2l (j - 1) = 0
            · rw [hz]
              refine ⟨by omega, by omega, ?_⟩
              intro t ht
              have ht0 : t = 0 := by omega
              subst ht0
              simpa using hmemj.symm
            · have hz' : 0 < j2l (j - 1) := Nat.pos_of_ne_zero hz
              obtain ⟨hb1, hb2, hb3, hb4, hb5⟩ := hprev (j - 1) hz'
              refine ⟨by omega, by omega, ?_⟩
              intro t ht
              rcases Nat.eq_zero_or_pos t with ht0 | htp
              · subst ht0
                simpa using hmemj.symm
              · obtain ⟨s, rfl⟩ := Nat.exists_eq_add_of_le htp
                have h5 := hb5 s (by omega)
                have e1 : i - (1 + s) = i - 1 - s := by omega
                have e2 : j - (1 + s) = j - 1 - s := by omega
                rw [e1, e2]
                exact h5
        set k := (if j = 0 then 0 else j2l (j - 1)) + 1 with hk
        obtain ⟨key1, key2, key3⟩ := key
        have hkpos : 0 < k := by rw [hk]; omega
        have hnew2 : FlmChain a b alo blo bhi (i + 1) (fun x => if x = j then k else new x) := by
          intro x hx
          by_cases hxj : x = j
          · subst hxj
            simp only [if_pos rfl, eq_self_iff_true, if_true] at hx ⊢
            refine ⟨by omega, h2, by omega, by omega, ?_⟩
            intro t ht
            have h5 := key3 t ht
            have e : i + 1 - 1 - t = i - t := by omega
            rw [e]
            exact h5
          · simp only [if_neg hxj] at hx ⊢
            exact hnew x hx
        have hst2 : FlmBest a b alo blo bhi (i + 1)
            (if st.bestsize < k then FlmSt.mk (i + 1 - k) (j + 1 - k) k else st) := by
          by_cases hlt : st.bestsize < k
          · rw [if_pos hlt]
            refine ⟨by simp; omega, by simp; omega, by simp; omega, by simp; omega, ?_⟩
            intro t ht
            simp only at ht ⊢
            have h5 := key3 (k - 1 - t) (by omega)
            have e1 : i - (k - 1 - t) = i + 1 - k + t := by omega
            have e2 : j - (k - 1 - t) = j + 1 - k + t := by omega
            rw [e1, e2] at h5
            exact h5
          · rw [if_neg hlt]
            exact hst
        exact ih _ _ hmem' hnew2 hst2

lemma b2j_mem (b : List String) (x : String) :
    ∀ j ∈ b2j b x, j < b.length ∧ b.getD j "" = x := by
  intro j hj
  unfold b2j at hj
  rw [List.mem_filter] at hj
  obtain ⟨hr, he⟩ := hj
  rw [List.mem_range] at hr
  exact ⟨hr, by simpa using he⟩

lemma flmRows_inv (a b : List String) (alo blo bhi : Nat) :
    ∀ n i j2l st, alo ≤ i →
      FlmChain a b alo blo bhi i j2l →
      FlmBest a b alo blo bhi i st →
      FlmBest a b alo blo bhi (i + n) (flmRows a b blo bhi i n (j2l, st)).2 := by
  intro n
  induction n with
  | zero => intro i j2l st _ _ hst; simpa [flmRows] using hst
  | succ n ih =>
    intro i j2l st hi hchain hst
    rw [flmRows]
    have hmem : ∀ j ∈ b2j b (a.getD i ""), b.getD j "" = a.getD i "" :=
      fun j hj => (b2j_mem b _ j hj).2
    have hz : FlmChain a b alo blo bhi (i + 1) (fun _ => 0) := by
      intro j hj
      simp at hj
    obtain ⟨hs1, hs2, hs3, hs4, hs5⟩ := hst
    have hstep := flmRow_inv a b alo blo bhi i j2l hchain hi
      (b2j b (a.getD i "")) (fun _ => 0) st hmem hz
      ⟨hs1, hs2, by omega, hs4, hs5⟩
    have hrec := ih (i + 1) _ _ (by omega) hstep.1 hstep.2
    have e : i + 1 + n = i + (n + 1) := by omega
    rw [e] at hrec
    exact hrec

lemma extBF_inv (a b : List String) (alo blo : Nat) :
    ∀ fuel bi bj sz, alo ≤ bi → blo ≤ bj →
      (∀ t, t < sz → a.getD (bi + t) "" = b.getD (bj + t) "") →
      ∀ p q r, extBF a b alo blo fuel bi bj sz = (p, q, r) →
        alo ≤ p ∧ blo ≤ q ∧ p + r = bi + sz ∧ q + r = bj + sz ∧
          ∀ t, t < r → a.getD (p + t) "" = b.getD (q + t) "" := by
  intro fuel
  induction fuel with
  | zero =>
    intro bi bj sz h1 h2 h3 p q r he
    rw [extBF] at he
    cases he
    exact ⟨h1, h2, rfl, rfl, h3⟩
  | succ fuel ih =>
    intro bi bj sz h1 h2 h3 p q r he
    rw [extBF] at he
    by_cases hc : alo < bi ∧ blo < bj ∧ a.getD (bi - 1) "" == b.getD (bj - 1) ""
    · rw [if_pos hc] at he
      have heq : a.getD (bi - 1) "" = b.getD (bj - 1) "" := eq_of_beq hc.2.2
      have h3' : ∀ t, t < sz + 1 → a.getD (bi - 1 + t) "" = b.getD (bj - 1 + t) "" := by
        intro t ht
        rcases Nat.eq_zero_or_pos t with ht0 | htp
        · subst ht0
          simpa using heq
        · obtain ⟨s, rfl⟩ := Nat.exists_eq_add_of_le htp
          have e1 : bi - 1 + (1 + s) = bi + s := by omega
          have e2 : bj - 1 + (1 + s) = bj + s := by omega
          rw [e1, e2]
          exact h3 s (by omega)
      have hrec := ih (bi - 1) (bj - 1) (sz + 1) (by omega) (by omega) h3' p q r he
      obtain ⟨hh1, hh2, hh3, hh4, hh5⟩ := hrec
      exact ⟨hh1, hh2, by omega, by omega, hh5⟩
    · rw [if_neg hc] at he
      cases he
      exact ⟨h1, h2, rfl, rfl, h3⟩

lemma extFF_inv (a b : List String) (ahi bhi : Nat) :
    ∀ fuel bi bj sz, bi + sz ≤ ahi → bj + sz ≤ bhi →
      (∀ t, t < sz → a.getD (bi + t) "" = b.getD (bj + t) "") →
      bi + extFF a b ahi bhi fuel bi bj sz ≤ ahi ∧
        bj + extFF a b ahi bhi fuel bi bj sz ≤ bhi ∧
        ∀ t, t < extFF a b ahi bhi fuel bi bj sz →
          a.getD (bi + t) "" = b.getD (bj + t) "" := by
  intro fuel
  induction fuel with
  | zero =>
    intro bi bj sz h1 h2 h3
    rw [extFF]
    exact ⟨h1, h2, h3⟩
  | succ fuel ih =>
    intro bi bj sz h1 h2 h3
    rw [extFF]
    by_cases hc : bi + sz < ahi ∧ bj + sz < bhi ∧ a.getD (bi + sz) "" == b.getD (bj + sz) ""
    · rw [if_pos hc]
      have heq : a.getD (bi + sz) "" = b.getD (bj + sz) "" := eq_of_beq hc.2.2
      have h3' : ∀ t, t < sz + 1 → a.getD (bi + t) "" = b.getD (bj + t) "" := by
        intro t ht
        rcases Nat.lt_or_ge t sz with h | h
        · exact h3 t h
        · have ht' : t = sz := by omega
          subst ht'
          exact heq
      exact ih bi bj (sz + 1) (by omega) (by omega) h3'
    · rw [if_neg hc]
      exact ⟨h1, h2, h3⟩

/-- `find_longest_match` returns an in-bounds genuine match. -/
lemma flm_spec (a b : List String) (alo ahi blo bhi : Nat)
    (h1 : alo ≤ ahi) (h2 : blo ≤ bhi) :
    ∀ bi bj sz, flm a b alo ahi blo bhi = (bi, bj, sz) →
      alo ≤ bi ∧ blo ≤ bj ∧ bi + sz ≤ ahi ∧ bj + sz ≤ bhi ∧
        ∀ t, t < sz → a.getD (bi + t) "" = b.getD (bj + t) "" := by
  intro bi bj sz he
  unfold flm at he
  have hinit : FlmBest a b alo blo bhi alo (FlmSt.mk alo blo 0) := by
    refine ⟨le_refl _, le_refl _, by simp, by simpa using h2, ?_⟩
    intro t ht
    simp at ht
  have hz : FlmChain a b alo blo bhi alo (fun _ => 0) := by
    intro j hj
    simp at hj
  have hrows := flmRows_inv a b alo blo bhi (ahi - alo) alo (fun _ => 0)
    (FlmSt.mk alo blo 0) (le_refl _) hz hinit
  have hsum : alo + (ahi - alo) = ahi := by omega
  rw [hsum] at hrows
  set s := flmRows a b blo bhi alo (ahi - alo) (fun _ => 0, FlmSt.mk alo blo 0) with hs
  obtain ⟨hr1, hr2, hr3, hr4, hr5⟩ := hrows
  have hext := extBF_inv a b alo blo s.2.besti s.2.besti s.2.bestj s.2.bestsize hr1 hr2 hr5
  set e := extB a b alo blo s.2.besti s.2.bestj s.2.bestsize with hee
  have heq : extBF a b alo blo s.2.besti s.2.besti s.2.bestj s.2.bestsize = (e.1, e.2.1, e.2.2) := by
    rw [hee]
    rfl
  obtain ⟨hp1, hp2, hp3, hp4, hp5⟩ := hext e.1 e.2.1 e.2.2 heq
  have hfin := extFF_inv a b ahi bhi (ahi - (e.1 + e.2.2)) e.1 e.2.1 e.2.2
    (by omega) (by omega) hp5
  have hef : extF a b ahi bhi e.1 e.2.1 e.2.2 =
      extFF a b ahi bhi (ahi - (e.1 + e.2.2)) e.1 e.2.1 e.2.2 := rfl
  rw [← hef] at hfin
  obtain ⟨hf1, hf2, hf3⟩ := hfin
  have hbi : bi = e.1 := by
    have := congrArg Prod.fst he
    simpa using this.symm
  have hbj : bj = e.2.1 := by
    have := congrArg (fun p => p.2.1) he
    simpa using this.symm
  have hsz : sz = extF a b ahi bhi e.1 e.2.1 e.2.2 := by
    have := congrArg (fun p => p.2.2) he
    simpa using this.symm
  subst hbi hbj hsz
  exact ⟨hp1, hp2, hf1, hf2, hf3⟩

/-! ### `get_matching_blocks`: collected blocks are genuine and separated -/

lemma sepR_symm : ∀ {x y}, SepR x y → SepR y x := by
  intro x y h
  unfold SepR at h ⊢
  tauto

lemma sepR_sub {x r s : Nat × Nat × Nat × Nat} (h : SepR x r) (hs : SubR s r) : SepR x s := by
  unfold SepR at h ⊢
  unfold SubR at hs
  omega

lemma mbLoop_inv (a b : List String) :
    ∀ fuel queue acc,
      (∀ r ∈ queue, RegOK a b r) →
      (∀ x ∈ acc, Genu a b x ∧ 0 < x.2.2) →
      (∀ x ∈ acc, ∀ r ∈ queue, SepR (blkReg x) r) →
      List.Pairwise (fun x y => SepR (blkReg x) (blkReg y)) acc →
      List.Pairwise SepR queue →
      (∀ x ∈ mbLoop a b fuel queue acc, Genu a b x ∧ 0 < x.2.2) ∧
        List.Pairwise (fun x y => SepR (blkReg x) (blkReg y)) (mbLoop a b fuel queue acc) := by
  intro fuel
  induction fuel with
  | zero =>
    intro queue acc _ h2 _ h4 _
    rw [mbLoop]
    exact ⟨h2, h4⟩
  | succ fuel ih =>
    intro queue acc hq hacc hcross hpacc hpq
    cases queue with
    | nil =>
      rw [mbLoop]
      exact ⟨hacc, hpacc⟩
    | cons r0 rest =>
      obtain ⟨alo, ahi, blo, bhi⟩ := r0
      rw [mbLoop]
      have hr0 : RegOK a b (alo, ahi, blo, bhi) := hq _ (List.mem_cons_self _ _)
      unfold RegOK at hr0
      dsimp only at hr0
      obtain ⟨hr01, hr02, hr03, hr04⟩ := hr0
      have hqrest : ∀ r ∈ rest, RegOK a b r := fun r hr => hq r (List.mem_cons_of_mem _ hr)
      have hpq' : List.Pairwise SepR rest := (List.pairwise_cons.mp hpq).2
      have hsep0 : ∀ r ∈ rest, SepR (alo, ahi, blo, bhi) r := (List.pairwise_cons.mp hpq).1
      set m := flm a b alo ahi blo bhi with hmdef
      have hm := flm_spec a b alo ahi blo bhi hr01 hr03 m.1 m.2.1 m.2.2 rfl
      obtain ⟨hm1, hm2, hm3, hm4, hm5⟩ := hm
      by_cases hz : m.2.2 = 0
      · rw [if_pos hz]
        refine ih rest acc hqrest hacc ?_ hpacc hpq'
        intro x hx r hr
        exact hcross x hx r (List.mem_cons_of_mem _ hr)
      · rw [if_neg hz]
        set R2 : Nat × Nat × Nat × Nat := (m.1 + m.2.2, ahi, m.2.1 + m.2.2, bhi) with hR2
        set R1 : Nat × Nat × Nat × Nat := (alo, m.1, blo, m.2.1) with hR1
        set newRegs := (if m.1 + m.2.2 < ahi ∧ m.2.1 + m.2.2 < bhi then [R2] else []) ++
          (if alo < m.1 ∧ blo < m.2.1 then [R1] else []) with hnr
        have hmemNew : ∀ r ∈ newRegs, r = R2 ∨ r = R1 := by
          intro r hr
          rw [hnr, List.mem_append] at hr
          rcases hr with h | h
          · left
            split at h
            · simpa using h
            · simp at h
          · right
            split at h
            · simpa using h
            · simp at h
        have hsubNew : ∀ r ∈ newRegs, SubR r (alo, ahi, blo, bhi) := by
          intro r hr
          rcases hmemNew r hr with h | h <;> subst h <;> unfold SubR <;> dsimp only <;> omega
        have hregNew : ∀ r ∈ newRegs, RegOK a b r := by
          intro r hr
          rw [hnr, List.mem_append] at hr
          rcases hr with h | h
          · split at h
            · rw [List.mem_singleton] at h
              subst h
              unfold RegOK
              dsimp only
              omega
            · simp at h
          · split at h
            · rw [List.mem_singleton] at h
              subst h
              unfold RegOK
              dsimp only
              omega
            · simp at h
        have hMsub : SubR (blkReg m) (alo, ahi, blo, bhi) := by
          unfold SubR blkReg
          dsimp only
          omega
        have hMR2 : SepR (blkReg m) R2 := by
          unfold SepR blkReg
          rw [hR2]
          dsimp only
          omega
        have hMR1 : SepR (blkReg m) R1 := by
          unfold SepR blkReg
          rw [hR1]
          dsimp only
          omega
        have hGm : Genu a b m ∧ 0 < m.2.2 := by
          refine ⟨⟨by omega, by omega, hm5⟩, by omega⟩
        have hq2 : ∀ r ∈ newRegs ++ rest, RegOK a b r := by
          intro r hr
          rw [List.mem_append] at hr
          rcases hr with h | h
          · exact hregNew r h
          · exact hqrest r h
        have hacc2 : ∀ x ∈ acc ++ [m], Genu a b x ∧ 0 < x.2.2 := by
          intro x hx
          rw [List.mem_append, List.mem_singleton] at hx
          rcases hx with h | h
          · exact hacc x h
          · subst h
            exact hGm
        have hcross2 : ∀ x ∈ acc ++ [m], ∀ r ∈ newRegs ++ rest, SepR (blkReg x) r := by
          intro x hx r hr
          rw [List.mem_append, List.mem_singleton] at hx
          rw [List.mem_append] at hr
          rcases hx with hx | hx
          · rcases hr with hr | hr
            · exact sepR_sub (hcross x hx _ (List.mem_cons_self _ _)) (hsubNew r hr)
            · exact hcross x hx r (List.mem_cons_of_mem _ hr)
          · subst hx
            rcases hr with hr | hr
            · rcases hmemNew r hr with h | h <;> subst h
              · exact hMR2
              · exact hMR1
            · exact sepR_symm (sepR_sub (sepR_symm (hsep0 r hr)) hMsub)
        have hpacc2 : List.Pairwise (fun x y => SepR (blkReg x) (blkReg y)) (acc ++ [m]) := by
          rw [List.pairwise_append]
          refine ⟨hpacc, List.pairwise_singleton _ _, ?_⟩
          intro x hx y hy
          rw [List.mem_singleton] at hy
          subst hy
          exact sepR_sub (hcross x hx _ (List.mem_cons_self _ _)) hMsub
        have hpq2 : List.Pairwise SepR (newRegs ++ rest) := by
          rw [List.pairwise_append]
          refine ⟨?_, hpq', ?_⟩
          · rw [hnr, List.pairwise_append]
            refine ⟨?_, ?_, ?_⟩
            · split
              · exact List.pairwise_singleton _ _
              · exact List.Pairwise.nil
            · split
              · exact List.pairwise_singleton _ _
              · exact List.Pairwise.nil
            · intro x hx y hy
              have hx' : x = R2 := by
                split at hx
                · simpa using hx
                · simp at hx
              have hy' : y = R1 := by
                split at hy
                · simpa using hy
                · simp at hy
              subst hx' hy'
              unfold SepR
              rw [hR1, hR2]
              dsimp only
              omega
          · intro x hx y hy
            exact sepR_symm (sepR_sub (sepR_symm (hsep0 y hy)) (hsubNew x hx))
        exact ih (newRegs ++ rest) (acc ++ [m]) hq2 hacc2 hcross2 hpacc2 hpq2

/-! ### From separated sorted blocks to a monotone tiling -/

lemma sorted_sep_mono (l : List (Nat × Nat × Nat))
    (hs : List.Pairwise blockLe l)
    (hsep : List.Pairwise (fun x y => SepR (blkReg x) (blkReg y)) l)
    (hpos : ∀ x ∈ l, 0 < x.2.2) :
    List.Pairwise MonoB l := by
  have hand := List.Pairwise.and hs hsep
  refine List.Pairwise.imp_of_mem ?_ hand
  intro x y _ hy h
  obtain ⟨hle, hsp⟩ := h
  have hky : 0 < y.2.2 := hpos y hy
  unfold blockLe at hle
  unfold SepR blkReg at hsp
  unfold MonoB
  dsimp only at hsp ⊢
  omega

lemma mergeAdj_inv (a b : List String) :
    ∀ xs c acc,
      (∀ x ∈ xs, Genu a b x) →
      Genu a b c →
      (∀ x ∈ xs, MonoB c x) →
      List.Pairwise MonoB xs →
      (∀ y ∈ acc, Genu a b y) →
      (∀ y ∈ acc, MonoB y c ∧ ∀ x ∈ xs, MonoB y x) →
      List.Pairwise MonoB acc →
      (∀ y ∈ mergeAdj acc c xs, Genu a b y) ∧
        List.Pairwise MonoB (mergeAdj acc c xs) := by
  intro xs
  induction xs with
  | nil =>
    intro c acc _ hc _ _ hacc hcrs hpacc
    rw [mergeAdj]
    constructor
    · intro y hy
      rw [List.mem_append] at hy
      rcases hy with h | h
      · exact hacc y h
      · split at h
        · rw [List.mem_singleton] at h
          subst h
          exact hc
        · simp at h
    · rw [List.pairwise_append]
      refine ⟨hpacc, ?_, ?_⟩
      · split
        · exact List.pairwise_singleton _ _
        · exact List.Pairwise.nil
      · intro y hy z hz
        split at hz
        · rw [List.mem_singleton] at hz
          subst hz
          exact (hcrs y hy).1
        · simp at hz
  | cons x rest ih =>
    intro c acc hxs hc hcx hpxs hacc hcrs hpacc
    have hxg : Genu a b x := hxs x (List.mem_cons_self _ _)
    have hrest : ∀ z ∈ rest, Genu a b z := fun z hz => hxs z (List.mem_cons_of_mem _ hz)
    have hxrest : ∀ z ∈ rest, MonoB x z := (List.pairwise_cons.mp hpxs).1
    have hprest : List.Pairwise MonoB rest := (List.pairwise_cons.mp hpxs).2
    rw [mergeAdj]
    by_cases hadj : c.1 + c.2.2 = x.1 ∧ c.2.1 + c.2.2 = x.2.1
    · rw [if_pos hadj]
      have hc' : Genu a b (c.1, c.2.1, c.2.2 + x.2.2) := by
        obtain ⟨hg1, hg2, hg3⟩ := hc
        obtain ⟨hx1, hx2, hx3⟩ := hxg
        refine ⟨by dsimp only; omega, by dsimp only; omega, ?_⟩
        dsimp only
        intro t ht
        rcases Nat.lt_or_ge t c.2.2 with h | h
        · exact hg3 t h
        · obtain ⟨s, rfl⟩ := Nat.exists_eq_add_of_le h
          have e1 : c.1 + (c.2.2 + s) = x.1 + s := by omega
          have e2 : c.2.1 + (c.2.2 + s) = x.2.1 + s := by omega
          rw [e1, e2]
          exact hx3 s (by omega)
      refine ih (c.1, c.2.1, c.2.2 + x.2.2) acc hrest hc' ?_ hprest hacc ?_ hpacc
      · intro z hz
        have := hxrest z hz
        unfold MonoB at this ⊢
        dsimp only at this ⊢
        omega
      · intro y hy
        obtain ⟨hy1, hy2⟩ := hcrs y hy
        constructor
        · unfold MonoB at hy1 ⊢
          dsimp only
          omega
        · intro z hz
          exact hy2 z (List.mem_cons_of_mem _ hz)
    · rw [if_neg hadj]
      refine ih x (acc ++ (if c.2.2 ≠ 0 then [c] else [])) hrest hxg hxrest hprest ?_ ?_ ?_
      · intro y hy
        rw [List.mem_append] at hy
        rcases hy with h | h
        · exact hacc y h
        · split at h
          · rw [List.mem_singleton] at h
            subst h
            exact hc
          · simp at h
      · intro y hy
        rw [List.mem_append] at hy
        rcases hy with h | h
        · obtain ⟨hy1, hy2⟩ := hcrs y h
          exact ⟨hy2 x (List.mem_cons_self _ _), fun z hz => hy2 z (List.mem_cons_of_mem _ hz)⟩
        · split at h
          · rw [List.mem_singleton] at h
            subst h
            exact ⟨hcx x (List.mem_cons_self _ _), fun z hz => hcx z (List.mem_cons_of_mem _ hz)⟩
          · simp at h
      · rw [List.pairwise_append]
        refine ⟨hpacc, ?_, ?_⟩
        · split
          · exact List.pairwise_singleton _ _
          · exact List.Pairwise.nil
        · intro y hy z hz
          split at hz
          · rw [List.mem_singleton] at hz
            subst hz
            exact (hcrs y hy).1
          · simp at hz

/-- All matching blocks are genuine, and the final block list is a
monotone tiling ending with the sentinel. -/
lemma matchingBlocks_ok (a b : List String) :
    (∀ x ∈ matchingBlocks a b, Genu a b x) ∧
      List.Pairwise MonoB (matchingBlocks a b) := by
  have hraw := mbLoop_inv a b (a.length + b.length + 1) [(0, a.length, 0, b.length)] []
    (by
      intro r hr
      rw [List.mem_singleton] at hr
      subst hr
      exact ⟨Nat.zero_le _, le_refl _, Nat.zero_le _, le_refl _⟩)
    (by intro x hx; simp at hx)
    (by intro x hx; simp at hx)
    List.Pairwise.nil
    (List.pairwise_singleton _ _)
  obtain ⟨hgen, hsep⟩ := hraw
  set raw := mbLoop a b (a.length + b.length + 1) [(0, a.length, 0, b.length)] [] with hrawdef
  have hperm := List.perm_insertionSort blockLe raw
  have hgen' : ∀ x ∈ List.insertionSort blockLe raw, Genu a b x ∧ 0 < x.2.2 :=
    fun x hx => hgen x (hperm.mem_iff.mp hx)
  have hsep' : List.Pairwise (fun x y => SepR (blkReg x) (blkReg y))
      (List.insertionSort blockLe raw) :=
    (hperm.pairwise_iff (fun h => sepR_symm h)).mpr hsep
  have hsorted : List.Pairwise blockLe (List.insertionSort blockLe raw) :=
    List.sorted_insertionSort blockLe raw
  have hmono : List.Pairwise MonoB (List.insertionSort blockLe raw) :=
    sorted_sep_mono _ hsorted hsep' (fun x hx => (hgen' x hx).2)
  have hmerge := mergeAdj_inv a b (List.insertionSort blockLe raw) (0, 0, 0) []
    (fun x hx => (hgen' x hx).1)
    (by
      refine ⟨by simp, by simp, ?_⟩
      intro t ht
      simp at ht)
    (by
      intro x hx
      unfold MonoB
      dsimp only
      omega)
    hmono
    (by intro y hy; simp at hy)
    (by intro y hy; simp at hy)
    List.Pairwise.nil
  obtain ⟨hg2, hp2⟩ := hmerge
  constructor
  · intro x hx
    unfold matchingBlocks at hx
    rw [List.mem_append] at hx
    rcases hx with h | h
    · exact hg2 x h
    · rw [List.mem_singleton] at h
      subst h
      refine ⟨by simp, by simp, ?_⟩
      intro t ht
      simp at ht
  · unfold matchingBlocks
    rw [List.pairwise_append]
    refine ⟨hp2, List.pairwise_singleton _ _, ?_⟩
    intro y hy z hz
    rw [List.mem_singleton] at hz
    subst hz
    have := hg2 y hy
    obtain ⟨hy1, hy2, _⟩ := this
    exact ⟨hy1, hy2⟩

/-! ### All-equal opcodes force equal inputs -/

lemma getD_eq_some (l : List String) (n : Nat) (h : n < l.length) :
    l[n]? = some (l.getD n "") := by
  rw [List.getElem?_eq_getElem h]
  rw [List.getD_eq_getElem?_getD, List.getElem?_eq_getElem h]
  rfl

lemma take_ext (a b : List String) (i : Nat) :
    ∀ sz, a.take i = b.take i →
      (∀ t, t < sz → a.getD (i + t) "" = b.getD (i + t) "") →
      i + sz ≤ a.length → i + sz ≤ b.length →
      a.take (i + sz) = b.take (i + sz) := by
  intro sz
  induction sz with
  | zero =>
    intro h _ _ _
    simpa using h
  | succ sz ih =>
    intro h hc ha hb
    have hstep := ih h (fun t ht => hc t (by omega)) (by omega) (by omega)
    have e : i + (sz + 1) = (i + sz) + 1 := by omega
    rw [e, List.take_succ, List.take_succ, hstep]
    have h1 : a[i + sz]? = some (a.getD (i + sz) "") := getD_eq_some a _ (by omega)
    have h2 : b[i + sz]? = some (b.getD (i + sz) "") := getD_eq_some b _ (by omega)
    rw [h1, h2, hc sz (by omega)]

lemma opcodes_walk (a b : List String) :
    ∀ blocks i,
      (∀ c ∈ opcodesLoop i i blocks, c.tag = Tag.equal) →
      (∀ x ∈ blocks, Genu a b x) →
      List.Chain' MonoB (((i, i, 0) : Nat × Nat × Nat) :: blocks) →
      a.take i = b.take i →
      ∀ x ∈ blocks,
        x.1 + x.2.2 = x.2.1 + x.2.2 ∧ a.take (x.1 + x.2.2) = b.take (x.2.1 + x.2.2) := by
  intro blocks
  induction blocks with
  | nil =>
    intro i _ _ _ _ x hx
    simp at hx
  | cons blk rest ih =>
    intro i hEq hGen hChain hTake
    obtain ⟨ai, bj, sz⟩ := blk
    have hhead : MonoB (i, i, 0) (ai, bj, sz) := (List.chain'_cons.mp hChain).1
    have hchain1 : List.Chain' MonoB ((ai, bj, sz) :: rest) := (List.chain'_cons.mp hChain).2
    have hib : i ≤ ai ∧ i ≤ bj := by
      unfold MonoB at hhead
      dsimp only at hhead
      omega
    have hgap : ai ≤ i ∧ bj ≤ i := by
      by_cases h1 : i < ai <;> by_cases h2 : i < bj
      · exfalso
        have hmem : Opcode.mk Tag.replace i ai i bj ∈ opcodesLoop i i ((ai, bj, sz) :: rest) := by
          rw [opcodesLoop, if_pos ⟨h1, h2⟩]
          exact List.mem_append_left _ (List.mem_append_left _ (List.mem_singleton.mpr rfl))
        have := hEq _ hmem
        simp at this
      · exfalso
        have hmem : Opcode.mk Tag.delete i ai i bj ∈ opcodesLoop i i ((ai, bj, sz) :: rest) := by
          rw [opcodesLoop, if_neg (by tauto), if_pos h1]
          exact List.mem_append_left _ (List.mem_append_left _ (List.mem_singleton.mpr rfl))
        have := hEq _ hmem
        simp at this
      · exfalso
        have hmem : Opcode.mk Tag.insert i ai i bj ∈ opcodesLoop i i ((ai, bj, sz) :: rest) := by
          rw [opcodesLoop, if_neg (by tauto), if_neg h1, if_pos h2]
          exact List.mem_append_left _ (List.mem_append_left _ (List.mem_singleton.mpr rfl))
        have := hEq _ hmem
        simp at this
      · omega
    have hai : i = ai := by omega
    subst hai
    have hbj : i = bj := by omega
    subst hbj
    have hgB : Genu a b (i, i, sz) := hGen _ (List.mem_cons_self _ _)
    obtain ⟨hg1, hg2, hg3⟩ := hgB
    dsimp only at hg1 hg2 hg3
    have htk : a.take (i + sz) = b.take (i + sz) := take_ext a b i sz hTake hg3 hg1 hg2
    have hEq' : ∀ c ∈ opcodesLoop (i + sz) (i + sz) rest, c.tag = Tag.equal := by
      intro c hc
      apply hEq
      rw [opcodesLoop]
      exact List.mem_append_right _ hc
    have hGen' : ∀ x ∈ rest, Genu a b x := fun x hx => hGen x (List.mem_cons_of_mem _ hx)
    have hChain' : List.Chain' MonoB (((i + sz, i + sz, 0) : Nat × Nat × Nat) :: rest) := by
      cases rest with
      | nil => simp
      | cons h t =>
        rw [List.chain'_cons]
        have hrel : MonoB (i, i, sz) h := (List.chain'_cons.mp hchain1).1
        refine ⟨?_, (List.chain'_cons.mp hchain1).2⟩
        unfold MonoB at hrel ⊢
        dsimp only at hrel ⊢
        omega
    have hrec := ih (i + sz) hEq' hGen' hChain' htk
    intro x hx
    rcases List.mem_cons.mp hx with h | h
    · subst h
      dsimp only
      exact ⟨rfl, htk⟩
    · exact hrec x h

/-! ### `get_grouped_opcodes`: an empty grouping forces all-equal opcodes -/

lemma adjStart_tag (c : Opcode) : (adjStart c).tag = c.tag := by
  unfold adjStart
  split <;> rfl

lemma adjEnd_tag (c : Opcode) : (adjEnd c).tag = c.tag := by
  unfold adjEnd
  split <;> rfl

lemma mapLast_tags (f : Opcode → Opcode) (hf : ∀ c, (f c).tag = c.tag) :
    ∀ l : List Opcode, (mapLast f l).map Opcode.tag = l.map Opcode.tag := by
  intro l
  induction l with
  | nil => rfl
  | cons c rest ih =>
    cases rest with
    | nil => simp [mapLast, hf]
    | cons c2 r2 =>
      rw [mapLast, List.map_cons, List.map_cons, ih]

lemma adjustCodes_tags (l : List Opcode) :
    (adjustCodes l).map Opcode.tag = l.map Opcode.tag := by
  unfold adjustCodes
  cases l with
  | nil => rfl
  | cons c rest =>
    rw [mapLast_tags adjEnd adjEnd_tag, List.map_cons, List.map_cons, adjStart_tag]

lemma groupStep_bad (st : List (List Opcode) × List Opcode) (c : Opcode)
    (h : BadSt st) : BadSt (groupStep st c) := by
  unfold groupStep
  split
  · left
    simp
  · unfold BadSt at h ⊢
    dsimp only
    rcases h with h | ⟨x, hx, ht⟩
    · exact Or.inl h
    · exact Or.inr ⟨x, List.mem_append_left _ hx, ht⟩

lemma groupStep_nonequal (st : List (List Opcode) × List Opcode) (c : Opcode)
    (h : c.tag ≠ Tag.equal) : BadSt (groupStep st c) := by
  unfold groupStep
  rw [if_neg (by tauto)]
  right
  exact ⟨c, List.mem_append_right _ (List.mem_singleton.mpr rfl), h⟩

lemma foldl_groupStep_bad (l : List Opcode) :
    ∀ st, (BadSt st ∨ ∃ c ∈ l, c.tag ≠ Tag.equal) →
      BadSt (l.foldl groupStep st) := by
  induction l with
  | nil =>
    intro st h
    rcases h with h | ⟨c, hc, _⟩
    · simpa using h
    · simp at hc
  | cons c rest ih =>
    intro st h
    rw [List.foldl_cons]
    rcases h with h | ⟨x, hx, ht⟩
    · exact ih _ (Or.inl (groupStep_bad st c h))
    · rcases List.mem_cons.mp hx with hx | hx
    
      · subst hx
        exact ih _ (Or.inl (groupStep_nonequal st x ht))
      · exact ih _ (Or.inr ⟨x, hx, ht⟩)

lemma grouped_ne_nil (a b : List String)
    (h : ∃ c ∈ getOpcodes a b, c.tag ≠ Tag.equal) :
    getGroupedOpcodes a b ≠ [] := by
  obtain ⟨c, hc, ht⟩ := h
  unfold getGroupedOpcodes
  dsimp only
  have hne : getOpcodes a b ≠ [] := by
    intro habs
    rw [habs] at hc
    simp at hc
  rw [if_neg hne]
  have htags := adjustCodes_tags (getOpcodes a b)
  have hmem : c.tag ∈ (adjustCodes (getOpcodes a b)).map Opcode.tag := by
    rw [htags]
    exact List.mem_map.mpr ⟨c, hc, rfl⟩
  obtain ⟨c2, hc2, htag2⟩ := List.mem_map.mp hmem
  have hbad : BadSt ((adjustCodes (getOpcodes a b)).foldl groupStep ([], [])) :=
    foldl_groupStep_bad _ _ (Or.inr ⟨c2, hc2, by rw [htag2]; exact ht⟩)
  set s := (adjustCodes (getOpcodes a b)).foldl groupStep ([], []) with hs
  unfold BadSt at hbad
  rcases hbad with hb | ⟨x, hx, htx⟩
  · intro habs
    rw [List.append_eq_nil] at habs
    exact hb habs.1
  · intro habs
    rw [List.append_eq_nil] at habs
    have h2 := habs.2
    cases hsnd : s.2 with
    | nil =>
      rw [hsnd] at hx
      simp at hx
    | cons g grest =>
      rw [hsnd] at h2
      cases grest with
      | nil =>
        rw [hsnd] at hx
        rw [List.mem_singleton] at hx
        subst hx
        dsimp only at h2
        rw [if_neg htx] at h2
        simp at h2
      | cons g2 g3 =>
        simp at h2

/-- If `unified_diff` yields no lines, the two line lists are equal. -/
lemma unifiedDiff_nil_eq (ff tf : String) (a b : List String)
    (h : unifiedDiff ff tf a b = []) : a = b := by
  have hg : getGroupedOpcodes a b = [] := by
    cases hgo : getGroupedOpcodes a b with
    | nil => rfl
    | cons g gs =>
      unfold unifiedDiff at h
      rw [hgo] at h
      simp at h
  have hall : ∀ c ∈ getOpcodes a b, c.tag = Tag.equal := by
    by_contra hcon
    push_neg at hcon
    exact grouped_ne_nil a b hcon hg
  obtain ⟨hgen, hmono⟩ := matchingBlocks_ok a b
  have hchain : List.Chain' MonoB (((0, 0, 0) : Nat × Nat × Nat) :: matchingBlocks a b) := by
    cases hmb : matchingBlocks a b with
    | nil => simp
    | cons x rest =>
      rw [List.chain'_cons]
      constructor
      · unfold MonoB
        dsimp only
        omega
      · rw [← hmb]
        exact hmono.chain'
  have hwalk := opcodes_walk a b (matchingBlocks a b) 0 hall hgen hchain (by simp)
  have hsent : ((a.length, b.length, 0) : Nat × Nat × Nat) ∈ matchingBlocks a b := by
    unfold matchingBlocks
    exact List.mem_append_right _ (List.mem_singleton.mpr rfl)
  obtain ⟨hlen, htake⟩ := hwalk _ hsent
  dsimp only at hlen htake
  rw [Nat.add_zero, Nat.add_zero] at hlen htake
  rw [List.take_length, List.take_length] at htake
  exact htake

/-! ### `find_longest_match` on two equal lists returns the full diagonal -/

lemma sorted_split (l : List Nat) (hp : List.Pairwise (· < ·) l) (i : Nat) (hi : i ∈ l) :
    ∃ A B, l = A ++ i :: B ∧ (∀ x ∈ A, x < i) ∧ (∀ x ∈ B, i < x) := by
  induction l with
  | nil => simp at hi
  | cons h t ih =>
    rcases List.mem_cons.mp hi with he | hmem
    · subst he
      exact ⟨[], t, rfl, by intro x hx; simp at hx, (List.pairwise_cons.mp hp).1⟩
    · obtain ⟨A, B, hl, hA, hB⟩ := ih (List.pairwise_cons.mp hp).2 hmem
      have hh : h < i := (List.pairwise_cons.mp hp).1 i hmem
      refine ⟨h :: A, B, ?_, ?_, hB⟩
      · rw [List.cons_append, hl]
      · intro x hx
        rcases List.mem_cons.mp hx with e | e
        · omega
        · exact hA x e

lemma flmRow_append (a b : List String) (blo bhi i : Nat) (j2l : Nat → Nat) :
    ∀ A rest new st, (∀ x ∈ A, x < bhi) →
      flmRow a b blo bhi i j2l (A ++ rest) new st =
        flmRow a b blo bhi i j2l rest (flmRow a b blo bhi i j2l A new st).1
          (flmRow a b blo bhi i j2l A new st).2 := by
  intro A
  induction A with
  | nil => intro rest new st _; rfl
  | cons j js ih =>
    intro rest new st hm
    have hj : j < bhi := hm j (List.mem_cons_self _ _)
    have hm' : ∀ x ∈ js, x < bhi := fun x hx => hm x (List.mem_cons_of_mem _ hx)
    rw [List.cons_append]
    rw [flmRow]
    conv_rhs => rw [flmRow]
    by_cases h1 : j < blo
    · simp only [if_pos h1]
      exact ih rest new st hm'
    · simp only [if_neg h1]
      by_cases h2 : bhi ≤ j
      · omega
      · simp only [if_neg h2]
        exact ih rest _ _ hm'

lemma flmRow_cons_eq (a b : List String) (blo bhi i : Nat) (j2l : Nat → Nat)
    (j : Nat) (js : List Nat) (new : Nat → Nat) (st : FlmSt) :
    flmRow a b blo bhi i j2l (j :: js) new st =
      if j < blo then flmRow a b blo bhi i j2l js new st
      else if bhi ≤ j then (new, st)
      else
        flmRow a b blo bhi i j2l js
          (fun x => if x = j then (if j = 0 then 0 else j2l (j - 1)) + 1 else new x)
          (if st.bestsize < (if j = 0 then 0 else j2l (j - 1)) + 1 then
            FlmSt.mk (i + 1 - ((if j = 0 then 0 else j2l (j - 1)) + 1))
              (j + 1 - ((if j = 0 then 0 else j2l (j - 1)) + 1))
              ((if j = 0 then 0 else j2l (j - 1)) + 1)
          else st) := rfl

lemma flmRow_phaseA (a : List String) (i : Nat) (f : Nat → Nat)
    (hf : ∀ j, f j ≤ min i (j + 1)) :
    ∀ js new, (∀ x ∈ js, x < i) → (∀ x ∈ js, x < a.length) →
      (∀ j, new j ≤ min (i + 1) (j + 1)) →
      (flmRow a a 0 a.length i f js new (FlmSt.mk 0 0 i)).2 = FlmSt.mk 0 0 i ∧
        (∀ j, (flmRow a a 0 a.length i f js new (FlmSt.mk 0 0 i)).1 j ≤ min (i + 1) (j + 1)) ∧
        (flmRow a a 0 a.length i f js new (FlmSt.mk 0 0 i)).1 i = new i := by
  intro js
  induction js with
  | nil =>
    intro new _ _ hnew
    exact ⟨rfl, hnew, rfl⟩
  | cons j js ih =>
    intro new hlt hla hnew
    have hj : j < i := hlt j (List.mem_cons_self _ _)
    have hjla : j < a.length := hla j (List.mem_cons_self _ _)
    have hlt' : ∀ x ∈ js, x < i := fun x hx => hlt x (List.mem_cons_of_mem _ hx)
    have hla' : ∀ x ∈ js, x < a.length := fun x hx => hla x (List.mem_cons_of_mem _ hx)
    have hkb : (if j = 0 then 0 else f (j - 1)) + 1 ≤ j + 1 := by
      by_cases h0 : j = 0
      · rw [if_pos h0]
        omega
      · rw [if_neg h0]
        have := hf (j - 1)
        omega
    have hstep : flmRow a a 0 a.length i f (j :: js) new (FlmSt.mk 0 0 i) =
        flmRow a a 0 a.length i f js
          (fun x => if x = j then (if j = 0 then 0 else f (j - 1)) + 1 else new x)
          (FlmSt.mk 0 0 i) := by
      rw [flmRow_cons_eq]
      rw [if_neg (show ¬j < 0 by omega)]
      rw [if_neg (show ¬a.length ≤ j by omega)]
      rw [show (FlmSt.mk 0 0 i).bestsize = i from rfl]
      rw [if_neg (show ¬i < (if j = 0 then 0 else f (j - 1)) + 1 by omega)]
    rw [hstep]
    have hnew2 : ∀ x, (if x = j then (if j = 0 then 0 else f (j - 1)) + 1 else new x) ≤
        min (i + 1) (x + 1) := by
      intro x
      by_cases hx : x = j
      · rw [if_pos hx]
        subst hx
        omega
      · rw [if_neg hx]
        exact hnew x
    have hres := ih _ hlt' hla' hnew2
    refine ⟨hres.1, hres.2.1, ?_⟩
    have h3 := hres.2.2
    rw [h3]
    rw [if_neg (show ¬i = j by omega)]

lemma flmRow_phaseB (a : List String) (i : Nat) (f : Nat → Nat)
    (hf : ∀ j, f j ≤ min i (j + 1)) :
    ∀ js new, (∀ x ∈ js, i < x) →
      (∀ j, new j ≤ min (i + 1) (j + 1)) → new i = i + 1 →
      (flmRow a a 0 a.length i f js new (FlmSt.mk 0 0 (i + 1))).2 = FlmSt.mk 0 0 (i + 1) ∧
        (∀ j, (flmRow a a 0 a.length i f js new (FlmSt.mk 0 0 (i + 1))).1 j ≤
          min (i + 1) (j + 1)) ∧
        (flmRow a a 0 a.length i f js new (FlmSt.mk 0 0 (i + 1))).1 i = i + 1 := by
  intro js
  induction js with
  | nil =>
    intro new _ hnew hni
    exact ⟨rfl, hnew, hni⟩
  | cons j js ih =>
    intro new hgt hnew hni
    have hj : i < j := hgt j (List.mem_cons_self _ _)
    have hgt' : ∀ x ∈ js, i < x := fun x hx => hgt x (List.mem_cons_of_mem _ hx)
    by_cases h2 : a.length ≤ j
    · have hstep : flmRow a a 0 a.length i f (j :: js) new (FlmSt.mk 0 0 (i + 1)) =
          (new, FlmSt.mk 0 0 (i + 1)) := by
        rw [flmRow_cons_eq]
        rw [if_neg (show ¬j < 0 by omega)]
        rw [if_pos h2]
      rw [hstep]
      exact ⟨rfl, hnew, hni⟩
    · have hkb : (if j = 0 then 0 else f (j - 1)) + 1 ≤ i + 1 := by
        rw [if_neg (show ¬j = 0 by omega)]
        have := hf (j - 1)
        omega
      have hstep : flmRow a a 0 a.length i f (j :: js) new (FlmSt.mk 0 0 (i + 1)) =
          flmRow a a 0 a.length i f js
            (fun x => if x = j then (if j = 0 then 0 else f (j - 1)) + 1 else new x)
            (FlmSt.mk 0 0 (i + 1)) := by
        rw [flmRow_cons_eq]
        rw [if_neg (show ¬j < 0 by omega)]
        rw [if_neg h2]
        rw [show (FlmSt.mk 0 0 (i + 1)).bestsize = i + 1 from rfl]
        rw [if_neg (show ¬i + 1 < (if j = 0 then 0 else f (j - 1)) + 1 by omega)]
      rw [hstep]
      have hnew2 : ∀ x, (if x = j then (if j = 0 then 0 else f (j - 1)) + 1 else new x) ≤
          min (i + 1) (x + 1) := by
        intro x
        by_cases hx : x = j
        · rw [if_pos hx]
          subst hx
          omega
        · rw [if_neg hx]
          exact hnew x
      have hnewi : (if i = j then (if j = 0 then 0 else f (j - 1)) + 1 else new i) = i + 1 := by
        rw [if_neg (show ¬i = j by omega)]
        exact hni
      exact ih _ hgt' hnew2 hnewi

lemma flmRow_refl (a : List String) (i : Nat) (hila : i < a.length) (f : Nat → Nat)
    (hf1 : ∀ j, f j ≤ min i (j + 1)) (hf2 : f (i - 1) = i) :
    (flmRow a a 0 a.length i f (b2j a (a.getD i "")) (fun _ => 0) (FlmSt.mk 0 0 i)).2 =
      FlmSt.mk 0 0 (i + 1) ∧
      (∀ j, (flmRow a a 0 a.length i f (b2j a (a.getD i ""))
        (fun _ => 0) (FlmSt.mk 0 0 i)).1 j ≤ min (i + 1) (j + 1)) ∧
      (flmRow a a 0 a.length i f (b2j a (a.getD i "")) (fun _ => 0) (FlmSt.mk 0 0 i)).1 i =
        i + 1 := by
  have hpw : List.Pairwise (· < ·) (b2j a (a.getD i "")) := by
    unfold b2j
    exact (List.pairwise_lt_range a.length).filter _
  have hmem : i ∈ b2j a (a.getD i "") := by
    unfold b2j
    rw [List.mem_filter, List.mem_range]
    exact ⟨hila, by simp⟩
  obtain ⟨A, B, hsplit, hA, hB⟩ := sorted_split _ hpw i hmem
  have hblt : ∀ x ∈ b2j a (a.getD i ""), x < a.length := fun x hx => (b2j_mem a _ x hx).1
  have hAla : ∀ x ∈ A, x < a.length := by
    intro x hx
    exact hblt x (by rw [hsplit]; exact List.mem_append_left _ hx)
  have hBla : ∀ x ∈ B, x < a.length := by
    intro x hx
    exact hblt x (by
      rw [hsplit]
      exact List.mem_append_right _ (List.mem_cons_of_mem _ hx))
  have hAi : ∀ x ∈ A, x < i := hA
  rw [hsplit]
  rw [flmRow_append a a 0 a.length i f A (i :: B) _ _ hAla]
  have hpa := flmRow_phaseA a i f hf1 A (fun _ => 0) hAi hAla (by intro j; simp)
  set rA := flmRow a a 0 a.length i f A (fun _ => 0) (FlmSt.mk 0 0 i) with hrA
  obtain ⟨hpa1, hpa2, hpa3⟩ := hpa
  rw [hpa1]
  have hkself : (if i = 0 then 0 else f (i - 1)) = i := by
    by_cases h0 : i = 0
    · rw [if_pos h0, h0]
    · rw [if_neg h0, hf2]
  have hstep : flmRow a a 0 a.length i f (i :: B) rA.1 (FlmSt.mk 0 0 i) =
      flmRow a a 0 a.length i f B (fun x => if x = i then i + 1 else rA.1 x)
        (FlmSt.mk 0 0 (i + 1)) := by
    rw [flmRow_cons_eq]
    rw [if_neg (show ¬i < 0 by omega)]
    rw [if_neg (show ¬a.length ≤ i by omega)]
    rw [show (FlmSt.mk 0 0 i).bestsize = i from rfl]
    rw [hkself]
    rw [if_pos (show i < i + 1 by omega)]
    have e1 : i + 1 - (i + 1) = 0 := by omega
    rw [e1]
  rw [hstep]
  have hnew2 : ∀ x, (if x = i then i + 1 else rA.1 x) ≤ min (i + 1) (x + 1) := by
    intro x
    by_cases hx : x = i
    · rw [if_pos hx]
      subst hx
      omega
    · rw [if_neg hx]
      exact hpa2 x
  have hnewi : (if i = i then i + 1 else rA.1 i) = i + 1 := by
    rw [if_pos rfl]
  exact flmRow_phaseB a i f hf1 B _ hB hnew2 hnewi

lemma flmRows_refl (a : List String) :
    ∀ n i f, i + n ≤ a.length →
      (∀ j, f j ≤ min i (j + 1)) → f (i - 1) = i →
      (flmRows a a 0 a.length i n (f, FlmSt.mk 0 0 i)).2 = FlmSt.mk 0 0 (i + n) := by
  intro n
  induction n with
  | zero =>
    intro i f _ _ _
    rw [flmRows]
    simp
  | succ n ih =>
    intro i f hle hf1 hf2
    rw [flmRows]
    have hrr := flmRow_refl a i (by omega) f hf1 hf2
    obtain ⟨hr1, hr2, hr3⟩ := hrr
    have hstep : (flmRow a a 0 a.length i f (b2j a (a.getD i "")) (fun _ => 0)
        (FlmSt.mk 0 0 i)) =
        ((flmRow a a 0 a.length i f (b2j a (a.getD i "")) (fun _ => 0) (FlmSt.mk 0 0 i)).1,
          FlmSt.mk 0 0 (i + 1)) := by
      rw [← hr1]
    rw [hstep]
    have hrec := ih (i + 1)
      (flmRow a a 0 a.length i f (b2j a (a.getD i "")) (fun _ => 0) (FlmSt.mk 0 0 i)).1
      (by omega)
      (by
        intro j
        exact hr2 j)
      (by
        have e : i + 1 - 1 = i := by omega
        rw [e]
        exact hr3)
    have e2 : i + 1 + n = i + (n + 1) := by omega
    rw [e2] at hrec
    exact hrec

/-- On two equal lists, `find_longest_match` over the whole range returns the
full diagonal. -/
lemma flm_refl (a : List String) : flm a a 0 a.length 0 a.length = (0, 0, a.length) := by
  have hrows := flmRows_refl a a.length 0 (fun _ => 0) (by omega) (by intro j; simp) rfl
  rw [Nat.zero_add] at hrows
  simp only [flm, Nat.sub_zero]
  rw [hrows]
  rw [show (FlmSt.mk 0 0 a.length).besti = 0 from rfl,
    show (FlmSt.mk 0 0 a.length).bestj = 0 from rfl,
    show (FlmSt.mk 0 0 a.length).bestsize = a.length from rfl]
  rw [show extB a a 0 0 0 0 a.length = (0, 0, a.length) from rfl]
  rw [show extF a a a.length a.length 0 0 a.length = a.length by
    unfold extF
    rw [Nat.zero_add, Nat.sub_self]
    rfl]

lemma matchingBlocks_self (a : List String) (h : a ≠ []) :
    matchingBlocks a a = [(0, 0, a.length), (a.length, a.length, 0)] := by
  have hla : 0 < a.length := List.length_pos.mpr h
  unfold matchingBlocks
  dsimp only
  obtain ⟨fuel2, hfuel⟩ : ∃ m, a.length + a.length + 1 = m + 1 + 1 :=
    ⟨a.length + a.length - 1, by omega⟩
  rw [hfuel]
  rw [mbLoop]
  rw [flm_refl]
  dsimp only
  rw [if_neg (show ¬a.length = 0 by omega)]
  rw [if_neg (show ¬(0 + a.length < a.length ∧ 0 + a.length < a.length) by omega)]
  rw [if_neg (show ¬(0 < 0 ∧ 0 < 0) by omega)]
  simp only [List.append_nil, List.nil_append]
  rw [mbLoop]
  rw [show List.insertionSort blockLe [(0, 0, a.length)] = [(0, 0, a.length)] from rfl]
  have h0 : 0 + a.length ≠ 0 := by omega
  simp [mergeAdj, h0]
  rw [if_neg h]
  rfl

lemma getOpcodes_self (a : List String) (h : a ≠ []) :
    getOpcodes a a = [Opcode.mk Tag.equal 0 a.length 0 a.length] := by
  have hla : 0 < a.length := List.length_pos.mpr h
  unfold getOpcodes
  rw [matchingBlocks_self a h]
  rw [opcodesLoop]
  rw [if_neg (show ¬(0 < 0 ∧ 0 < 0) by omega)]
  rw [if_neg (show ¬(0 < 0) by omega)]
  rw [if_neg (show ¬(0 < 0) by omega)]
  rw [if_pos (show a.length ≠ 0 by omega)]
  rw [opcodesLoop]
  rw [if_neg (show ¬(0 + a.length < a.length ∧ 0 + a.length < a.length) by omega)]
  rw [if_neg (show ¬(0 + a.length < a.length) by omega)]
  rw [if_neg (show ¬(0 + a.length < a.length) by omega)]
  rw [if_neg (show ¬(0 ≠ 0) by omega)]
  rw [opcodesLoop]
  simp

lemma grouped_self (a : List String) : getGroupedOpcodes a a = [] := by
  by_cases h : a = []
  · subst h
    decide
  · have hla : 0 < a.length := List.length_pos.mpr h
    unfold getGroupedOpcodes
    dsimp only
    rw [getOpcodes_self a h]
    rw [if_neg (show ¬([Opcode.mk Tag.equal 0 a.length 0 a.length] : List Opcode) = [] by simp)]
    rw [show adjustCodes [Opcode.mk Tag.equal 0 a.length 0 a.length] =
        [adjEnd (adjStart (Opcode.mk Tag.equal 0 a.length 0 a.length))] from rfl]
    rw [show adjStart (Opcode.mk Tag.equal 0 a.length 0 a.length) =
        Opcode.mk Tag.equal (max 0 (a.length - 3)) a.length (max 0 (a.length - 3)) a.length by
      unfold adjStart
      rw [if_pos rfl]]
    rw [show adjEnd (Opcode.mk Tag.equal (max 0 (a.length - 3)) a.length
          (max 0 (a.length - 3)) a.length) =
        Opcode.mk Tag.equal (max 0 (a.length - 3))
          (min a.length (max 0 (a.length - 3) + 3)) (max 0 (a.length - 3))
          (min a.length (max 0 (a.length - 3) + 3)) by
      unfold adjEnd
      rw [if_pos rfl]]
    rw [List.foldl_cons, List.foldl_nil]
    rw [show groupStep ([], []) (Opcode.mk Tag.equal (max 0 (a.length - 3))
          (min a.length (max 0 (a.length - 3) + 3)) (max 0 (a.length - 3))
          (min a.length (max 0 (a.length - 3) + 3))) =
        ([], [Opcode.mk Tag.equal (max 0 (a.length - 3))
          (min a.length (max 0 (a.length - 3) + 3)) (max 0 (a.length - 3))
          (min a.length (max 0 (a.length - 3) + 3))]) by
      unfold groupStep
      rw [if_neg (by
        dsimp only
        intro hcon
        omega)]
      rfl]
    dsimp only
    rw [if_pos rfl]
    rfl

/-- `unified_diff` of a list against itself is empty. -/
lemma unifiedDiff_self (ff tf : String) (a : List String) : unifiedDiff ff tf a a = [] := by
  unfold unifiedDiff
  rw [grouped_self]

/-- `difflib.unified_diff` yields no lines exactly when the compared line
lists are equal. -/
theorem unifiedDiff_nil_iff (ff tf : String) (a b : List String) :
    unifiedDiff ff tf a b = [] ↔ a = b := by
  constructor
  · exact unifiedDiff_nil_eq ff tf a b
  · intro h
    subst h
    exact unifiedDiff_self ff tf a

/-! ### The comparison loop -/

lemma compareFiles_spec (d : String) (src dest : Entry) :
    ∀ fs r, compareFiles d src dest fs = Except.ok r →
      r.missing = fs.filter (fun rel => !pathExists dest rel) ∧
      r.diffs = (fs.map (fun rel => perArtifactDiff d src dest rel)).flatten := by
  intro fs
  induction fs with
  | nil =>
    intro r he
    rw [compareFiles] at he
    cases he
    exact ⟨rfl, rfl⟩
  | cons rel rest ih =>
    intro r he
    by_cases hp : pathExists dest rel
    · cases hsrc : readLines src rel with
      | error e =>
        rw [compareFiles, if_pos hp, hsrc] at he
        simp at he
      | ok ref =>
        cases hdst : readLines dest rel with
        | error e =>
          rw [compareFiles, if_pos hp, hsrc, hdst] at he
          simp at he
        | ok new =>
          cases hrec : compareFiles d src dest rest with
          | error e =>
            rw [compareFiles, if_pos hp, hsrc, hdst, hrec] at he
            simp at he
          | ok r2 =>
            rw [compareFiles, if_pos hp, hsrc, hdst, hrec] at he
            cases he
            obtain ⟨ih1, ih2⟩ := ih r2 hrec
            constructor
            · rw [List.filter_cons_of_neg (by simp [hp])]
              exact ih1
            · rw [List.map_cons, List.flatten_cons]
              rw [show perArtifactDiff d src dest rel =
                  unifiedDiff ("Reference/" ++ d ++ "/" ++ pathStr rel)
                    ("Result/" ++ d ++ "/" ++ pathStr rel) ref new by
                unfold perArtifactDiff
                rw [if_pos hp, hsrc, hdst]]
              rw [ih2]
    · cases hrec : compareFiles d src dest rest with
      | error e =>
        rw [compareFiles, if_neg hp, hrec] at he
        simp at he
      | ok r2 =>
        rw [compareFiles, if_neg hp, hrec] at he
        cases he
        obtain ⟨ih1, ih2⟩ := ih r2 hrec
        constructor
        · rw [List.filter_cons_of_pos (by simp [hp])]
          rw [ih1]
        · rw [List.map_cons, List.flatten_cons]
          rw [show perArtifactDiff d src dest rel = [] by
            unfold perArtifactDiff
            rw [if_neg hp]]
          rw [ih2]
          rfl

lemma compareFiles_total (d : String) (src dest : Entry) :
    ∀ fs, (∀ rel ∈ fs, (∃ ls, readLines src rel = Except.ok ls) ∧
        (pathExists dest rel → ∃ ls, readLines dest rel = Except.ok ls)) →
      ∃ r, compareFiles d src dest fs = Except.ok r := by
  intro fs
  induction fs with
  | nil =>
    intro _
    exact ⟨CmpRes.mk [] [], rfl⟩
  | cons rel rest ih =>
    intro hread
    obtain ⟨r2, hr2⟩ := ih (fun x hx => hread x (List.mem_cons_of_mem _ hx))
    obtain ⟨⟨ref, href⟩, hdst⟩ := hread rel (List.mem_cons_self _ _)
    by_cases hp : pathExists dest rel
    · obtain ⟨new, hnew⟩ := hdst hp
      refine ⟨CmpRes.mk r2.missing
        (unifiedDiff ("Reference/" ++ d ++ "/" ++ pathStr rel)
          ("Result/" ++ d ++ "/" ++ pathStr rel) ref new ++ r2.diffs), ?_⟩
      rw [compareFiles, if_pos hp, href, hnew, hr2]
    · refine ⟨CmpRes.mk (rel :: r2.missing) r2.diffs, ?_⟩
      rw [compareFiles, if_neg hp, hr2]

lemma compareFiles_error (d : String) (src dest : Entry) :
    ∀ fs rel, rel ∈ fs → pathExists dest rel →
      (∀ ls, readLines src rel ≠ Except.ok ls) →
      ∃ e, compareFiles d src dest fs = Except.error e := by
  intro fs
  induction fs with
  | nil =>
    intro rel hmem
    simp at hmem
  | cons x rest ih =>
    intro rel hmem hp hbad
    rcases List.mem_cons.mp hmem with he | hm
    · subst he
      cases hsrc : readLines src rel with
      | error e =>
        refine ⟨e, ?_⟩
        rw [compareFiles, if_pos hp, hsrc]
      | ok ls => exact absurd hsrc (hbad ls)
    · by_cases hpx : pathExists dest x
      · cases hsrc : readLines src x with
        | error e =>
          refine ⟨e, ?_⟩
          rw [compareFiles, if_pos hpx, hsrc]
        | ok ref =>
          cases hdst : readLines dest x with
          | error e =>
            refine ⟨e, ?_⟩
            rw [compareFiles, if_pos hpx, hsrc, hdst]
          | ok new =>
            obtain ⟨e, he⟩ := ih rel hm hp hbad
            refine ⟨e, ?_⟩
            rw [compareFiles, if_pos hpx, hsrc, hdst, he]
      · obtain ⟨e, he⟩ := ih rel hm hp hbad
        refine ⟨e, ?_⟩
        rw [compareFiles, if_neg hpx, he]

/-! ### Staging and the main loop -/

lemma lookupEntry_cons (n : String) (e : Entry) (rest : List (String × Entry)) (name : String) :
    lookupEntry ((n, e) :: rest) name =
      if n = name then some e else lookupEntry rest name := rfl

/-- After staging, the working directory of case `d` is exactly the source
tree, whatever was there before. -/
lemma stage_lookup (results : List (String × Entry)) (d : String) (src : Entry) :
    lookupEntry (stageCase results d src) d = some src := by
  unfold stageCase
  induction results with
  | nil =>
    rw [List.filter_nil, List.nil_append, lookupEntry_cons]
    rw [if_pos rfl]
  | cons p ps ih =>
    obtain ⟨n, e⟩ := p
    by_cases hp : n = d
    · rw [List.filter_cons_of_neg (by simp [hp])]
      exact ih
    · rw [List.filter_cons_of_pos (by simp [hp])]
      rw [List.cons_append, lookupEntry_cons]
      rw [if_neg hp]
      exact ih

/-- Staging case `d` leaves every other case directory untouched. -/
lemma stage_lookup_other (results : List (String × Entry)) (d : String) (src : Entry)
    (d' : String) (h : d' ≠ d) :
    lookupEntry (stageCase results d src) d' = lookupEntry results d' := by
  unfold stageCase
  induction results with
  | nil =>
    rw [List.filter_nil, List.nil_append, lookupEntry_cons]
    rw [if_neg (fun he => h he.symm)]
  | cons p ps ih =>
    obtain ⟨n, e⟩ := p
    by_cases hp : n = d
    · rw [List.filter_cons_of_neg (by simp [hp])]
      rw [ih, lookupEntry_cons]
      rw [if_neg (by rw [hp]; exact fun he => h he.symm)]
    · rw [List.filter_cons_of_pos (by simp [hp])]
      rw [List.cons_append, lookupEntry_cons, lookupEntry_cons]
      by_cases hn : n = d'
      · rw [if_pos hn, if_pos hn]
      · rw [if_neg hn, if_neg hn]
        exact ih

lemma runCases_shape (binary : Entry → ExecOutcome) (srcRoot : List (String × Entry)) :
    ∀ ds st st', runCases binary srcRoot ds st = Except.ok st' →
      ∃ ocs : List Outcome, ocs.length = ds.length ∧
        st'.resLines = st.resLines ++
          (ds.zip ocs).map (fun p => renderResLine p.1 p.2) ∧
        st'.diffEntries = st.diffEntries ++
          ((ds.zip ocs).map (fun p => renderDiffEntry p.1 p.2)).reduceOption := by
  intro ds
  induction ds with
  | nil =>
    intro st st' he
    rw [runCases] at he
    cases he
    exact ⟨[], rfl, by simp, by simp⟩
  | cons d ds ih =>
    intro st st' he
    cases hlook : lookupEntry srcRoot d with
    | none =>
      rw [runCases, hlook] at he
      simp at he
    | some srcTree =>
      rw [runCases, hlook] at he
      simp only [stage_lookup] at he
      cases hrc : runCase binary d srcTree srcTree with
      | error e =>
        rw [hrc] at he
        simp at he
      | ok p =>
        obtain ⟨oc, tree⟩ := p
        rw [hrc] at he
        obtain ⟨ocs, hlen, hres, hdiff⟩ := ih _ _ he
        refine ⟨oc :: ocs, by simp [hlen], ?_, ?_⟩
        · rw [hres]
          simp [List.append_assoc]
        · rw [hdiff]
          simp only [List.zip_cons_cons, List.map_cons]
          cases hre : renderDiffEntry d oc with
          | none =>
            simp [List.reduceOption_cons_of_none, hre]
          | some s =>
            simp [List.reduceOption_cons_of_some, hre]

lemma runCases_report_indep (binary : Entry → ExecOutcome) (srcRoot : List (String × Entry)) :
    ∀ ds st1 st2, st1.resLines = st2.resLines → st1.diffEntries = st2.diffEntries →
      reportOf (runCases binary srcRoot ds st1) = reportOf (runCases binary srcRoot ds st2) := by
  intro ds
  induction ds with
  | nil =>
    intro st1 st2 h1 h2
    rw [runCases, runCases]
    unfold reportOf
    simp [Except.map, h1, h2]
  | cons d ds ih =>
    intro st1 st2 h1 h2
    cases hlook : lookupEntry srcRoot d with
    | none =>
      rw [runCases, runCases, hlook]
    | some srcTree =>
      rw [runCases, runCases, hlook]
      simp only [stage_lookup]
      cases hrc : runCase binary d srcTree srcTree with
      | error e => rfl
      | ok p =>
        obtain ⟨oc, tree⟩ := p
        exact ih _ _ (by simp [h1]) (by simp [h2])

lemma runCase_exit0 (binary : Entry → ExecOutcome) (d : String) (src t : Entry)
    (hexec : binary src = ExecOutcome.exits 0 t)
    (hfs : filesToCheck src ≠ []) (r : CmpRes)
    (hcmp : compareFiles d src t (filesToCheck src) = Except.ok r) :
    runCase binary d src src = Except.ok
      (if r.missing = [] ∧ r.diffs = [] then Outcome.pass
       else Outcome.fail r.missing r.diffs, t) := by
  unfold runCase
  rw [hexec]
  dsimp only
  rw [if_neg hfs, hcmp]
  rw [if_pos (show (0 : Nat) = 0 from rfl)]
  dsimp only
  by_cases hc : r.missing = [] ∧ r.diffs = []
  · rw [if_pos hc, if_pos hc]
  · rw [if_neg hc, if_neg hc]

lemma perArtifactDiff_nil_iff (d : String) (src dest : Entry) (rel : List String)
    (hsrc : ∃ ls, readLines src rel = Except.ok ls)
    (hdst : pathExists dest rel → ∃ ls, readLines dest rel = Except.ok ls) :
    perArtifactDiff d src dest rel = [] ↔
      (pathExists dest rel → readLines src rel = readLines dest rel) := by
  by_cases hp : pathExists dest rel
  · obtain ⟨ref, href⟩ := hsrc
    obtain ⟨new, hnew⟩ := hdst hp
    unfold perArtifactDiff
    rw [if_pos hp, href, hnew]
    dsimp only
    rw [unifiedDiff_nil_iff]
    constructor
    · intro h _
      rw [h]
    · intro h
      exact Except.ok.inj (h hp)
  · unfold perArtifactDiff
    rw [if_neg hp]
    simp [hp]

/-! ### The claims -/

/-- C1: for a case whose execution exits with code zero and whose reference
artifact set is non-empty (and whose listed artifacts are text files wherever
they exist), the outcome is FAIL exactly when some reference artifact is
missing from the working directory or some compared artifact's line sequence
differs from its reference; it is PASS exactly when every reference artifact
exists and none differs, and a PASS case writes nothing to the diff log. -/
theorem C1_pass_fail_iff (binary : Entry → ExecOutcome) (d : String) (src t : Entry)
    (hexec : binary src = ExecOutcome.exits 0 t)
    (hfs : filesToCheck src ≠ [])
    (hread : ∀ rel ∈ filesToCheck src, (∃ ls, readLines src rel = Except.ok ls) ∧
      (pathExists t rel → ∃ ls, readLines t rel = Except.ok ls)) :
    ∃ oc, runCase binary d src src = Except.ok (oc, t) ∧
      ((∃ m df, oc = Outcome.fail m df) ↔
        (∃ rel ∈ filesToCheck src, ¬pathExists t rel) ∨
        (∃ rel ∈ filesToCheck src, pathExists t rel ∧
          readLines src rel ≠ readLines t rel)) ∧
      (oc = Outcome.pass ↔
        ∀ rel ∈ filesToCheck src, pathExists t rel ∧
          readLines src rel = readLines t rel) ∧
      (oc = Outcome.pass → renderDiffEntry d oc = none) := by
  obtain ⟨r, hcmp⟩ := compareFiles_total d src t (filesToCheck src) hread
  obtain ⟨hm, hd⟩ := compareFiles_spec d src t (filesToCheck src) r hcmp
  have hall : (r.missing = [] ∧ r.diffs = []) ↔
      ∀ rel ∈ filesToCheck src, pathExists t rel ∧
        readLines src rel = readLines t rel := by
    rw [hm, hd]
    rw [List.filter_eq_nil_iff]
    rw [List.flatten_eq_nil_iff]
    constructor
    · intro ⟨h1, h2⟩ rel hrel
      have hp : pathExists t rel := by
        have := h1 rel hrel
        simpa using this
      refine ⟨hp, ?_⟩
      have hnil : perArtifactDiff d src t rel = [] := by
        exact h2 _ (List.mem_map.mpr ⟨rel, hrel, rfl⟩)
      exact ((perArtifactDiff_nil_iff d src t rel (hread rel hrel).1
        (hread rel hrel).2).mp hnil) hp
    · intro h
      constructor
      · intro rel hrel
        simp [(h rel hrel).1]
      · intro l hl
        obtain ⟨rel, hrel, hpe⟩ := List.mem_map.mp hl
        rw [← hpe]
        exact (perArtifactDiff_nil_iff d src t rel (hread rel hrel).1
          (hread rel hrel).2).mpr (fun _ => (h rel hrel).2)
  have hrun := runCase_exit0 binary d src t hexec hfs r hcmp
  by_cases hc : r.missing = [] ∧ r.diffs = []
  · rw [if_pos hc] at hrun
    refine ⟨Outcome.pass, hrun, ?_, ?_, ?_⟩
    · constructor
      · intro ⟨m, df, habs⟩
        exact absurd habs (by simp)
      · intro habs
        exfalso
        have hp := hall.mp hc
        rcases habs with ⟨rel, hrel, hnp⟩ | ⟨rel, hrel, _, hne⟩
        · exact hnp (hp rel hrel).1
        · exact hne (hp rel hrel).2
    · exact ⟨fun _ => hall.mp hc, fun _ => rfl⟩
    · intro _
      rfl
  · rw [if_neg hc] at hrun
    refine ⟨Outcome.fail r.missing r.diffs, hrun, ?_, ?_, ?_⟩
    · constructor
      · intro _
        by_contra hno
        push_neg at hno
        obtain ⟨hno1, hno2⟩ := hno
        apply hc
        apply hall.mpr
        intro rel hrel
        exact ⟨hno1 rel hrel, hno2 rel hrel (hno1 rel hrel)⟩
      · intro _
        exact ⟨r.missing, r.diffs, rfl⟩
    · constructor
      · intro habs
        exact absurd habs (by simp)
      · intro h
        exact absurd (hall.mpr h) hc
    · intro habs
      exact absurd habs (by simp)

/-- Witness for C1: a concrete case whose produced `output.log` differs from
the reference is classified FAIL. -/
theorem C1_witness :
    ∃ oc, runCase case5Binary "5" case5Src case5Src = Except.ok (oc, case5Out) ∧
      ((∃ m df, oc = Outcome.fail m df) ↔
        (∃ rel ∈ filesToCheck case5Src, ¬pathExists case5Out rel) ∨
        (∃ rel ∈ filesToCheck case5Src, pathExists case5Out rel ∧
          readLines case5Src rel ≠ readLines case5Out rel)) ∧
      (oc = Outcome.pass ↔
        ∀ rel ∈ filesToCheck case5Src, pathExists case5Out rel ∧
          readLines case5Src rel = readLines case5Out rel) ∧
      (oc = Outcome.pass → renderDiffEntry "5" oc = none) :=
  C1_pass_fail_iff case5Binary "5" case5Src case5Out rfl (by decide)
    (by
      intro rel hrel
      have h : rel = ["output.log"] := by
        have : filesToCheck case5Src = [["output.log"]] := by decide
        rw [this] at hrel
        simpa using hrel
      subst h
      exact ⟨⟨["ok\n"], rfl⟩, fun _ => ⟨["fail\n"], rfl⟩⟩)

/-- C2: discovery returns exactly the all-digit entries of the source
listing, ordered by numeric value (so "10" sorts after "9"), and a completed
run's summary report has exactly one outcome line per discovered case, in
that order — for every directory-listing order, since `names` is arbitrary. -/
theorem C2_discovery_order (names : List String) (binary : Entry → ExecOutcome)
    (entries : List (String × Entry)) (res0 : List (String × Entry)) (st' : RunState)
    (hnames : entries.map Prod.fst = names)
    (hrun : runHarness binary (some entries) res0 = Except.ok st') :
    (discover names).Perm (names.filter pyIsDigit) ∧
      List.Pairwise natKeyLe (discover names) ∧
      ∃ ocs : List Outcome, ocs.length = (discover names).length ∧
        st'.resLines = ((discover names).zip ocs).map (fun p => renderResLine p.1 p.2) := by
  refine ⟨List.perm_insertionSort natKeyLe _, List.sorted_insertionSort natKeyLe _, ?_⟩
  rw [runHarness] at hrun
  rw [hnames] at hrun
  obtain ⟨ocs, hlen, hres, _⟩ := runCases_shape binary entries _ _ _ hrun
  refine ⟨ocs, ?_, ?_⟩
  · rw [hlen]
  · rw [hres]
    simp

/-- Witness for C2: source entries listed as 10, 9, 2, README are discovered
as 2, 9, 10 and reported in that order. -/
theorem C2_witness :
    (discover (c2Entries.map Prod.fst)).Perm
        ((c2Entries.map Prod.fst).filter pyIsDigit) ∧
      List.Pairwise natKeyLe (discover (c2Entries.map Prod.fst)) ∧
      ∃ ocs : List Outcome, ocs.length = (discover (c2Entries.map Prod.fst)).length ∧
        (RunState.mk [("2", Entry.dir []), ("9", Entry.dir []), ("10", Entry.dir [])]
          ["2: FAIL (Crash)\n", "9: FAIL (Crash)\n", "10: FAIL (Crash)\n"] []).resLines =
          ((discover (c2Entries.map Prod.fst)).zip ocs).map
            (fun p => renderResLine p.1 p.2) :=
  C2_discovery_order (c2Entries.map Prod.fst) crashBinary c2Entries [] _ rfl rfl

/-- C3: a non-zero exit code yields the line `<id>: FAIL (Crash)` with no
comparison and no diff-log entry; a launch failure yields
`<id>: ERROR (<message>)`; in both situations the loop simply continues
with the remaining cases. -/
theorem C3_execution_classification (binary : Entry → ExecOutcome)
    (srcRoot : List (String × Entry)) (d : String) (srcTree : Entry)
    (ds : List String) (st : RunState)
    (hlook : lookupEntry srcRoot d = some srcTree) :
    (∀ code tree, binary srcTree = ExecOutcome.exits code tree → code ≠ 0 →
      runCase binary d srcTree srcTree = Except.ok (Outcome.failCrash, tree) ∧
      renderResLine d Outcome.failCrash = d ++ ": FAIL (Crash)\n" ∧
      renderDiffEntry d Outcome.failCrash = none ∧
      runCases binary srcRoot (d :: ds) st = runCases binary srcRoot ds
        (RunState.mk (setEntry (stageCase st.results d srcTree) d tree)
          (st.resLines ++ [d ++ ": FAIL (Crash)\n"]) st.diffEntries)) ∧
    (∀ msg, binary srcTree = ExecOutcome.raises msg →
      runCase binary d srcTree srcTree = Except.ok (Outcome.execError msg, srcTree) ∧
      renderResLine d (Outcome.execError msg) = d ++ ": ERROR (" ++ msg ++ ")\n" ∧
      renderDiffEntry d (Outcome.execError msg) = none ∧
      runCases binary srcRoot (d :: ds) st = runCases binary srcRoot ds
        (RunState.mk (setEntry (stageCase st.results d srcTree) d srcTree)
          (st.resLines ++ [d ++ ": ERROR (" ++ msg ++ ")\n"]) st.diffEntries)) := by
  constructor
  · intro code tree hex hcode
    have hrc : runCase binary d srcTree srcTree = Except.ok (Outcome.failCrash, tree) := by
      unfold runCase
      rw [hex]
      dsimp only
      rw [if_neg hcode]
    refine ⟨hrc, rfl, rfl, ?_⟩
    rw [runCases, hlook]
    simp only [stage_lookup]
    rw [hrc]
    simp [renderResLine, renderDiffEntry]
  · intro msg hex
    have hrc : runCase binary d srcTree srcTree =
        Except.ok (Outcome.execError msg, srcTree) := by
      unfold runCase
      rw [hex]
    refine ⟨hrc, rfl, rfl, ?_⟩
    rw [runCases, hlook]
    simp only [stage_lookup]
    rw [hrc]
    simp [renderResLine, renderDiffEntry]

/-- Witness for C3: a crashing binary and a failing launch on case "3". -/
theorem C3_witness :
    (runCase crashBinary "3" case5Src case5Src =
        Except.ok (Outcome.failCrash, case5Src) ∧
      renderResLine "3" Outcome.failCrash = "3" ++ ": FAIL (Crash)\n" ∧
      renderDiffEntry "3" Outcome.failCrash = none ∧
      runCases crashBinary [("3", case5Src)] ["3"] (RunState.mk [] [] []) =
        runCases crashBinary [("3", case5Src)] []
          (RunState.mk (setEntry (stageCase [] "3" case5Src) "3" case5Src)
            ([] ++ ["3" ++ ": FAIL (Crash)\n"]) [])) ∧
    (runCase raiseBinary "3" case5Src case5Src =
        Except.ok (Outcome.execError "Permission denied", case5Src) ∧
      renderResLine "3" (Outcome.execError "Permission denied") =
        "3" ++ ": ERROR (" ++ "Permission denied" ++ ")\n" ∧
      renderDiffEntry "3" (Outcome.execError "Permission denied") = none ∧
      runCases raiseBinary [("3", case5Src)] ["3"] (RunState.mk [] [] []) =
        runCases raiseBinary [("3", case5Src)] []
          (RunState.mk (setEntry (stageCase [] "3" case5Src) "3" case5Src)
            ([] ++ ["3" ++ ": ERROR (" ++ "Permission denied" ++ ")\n"]) [])) :=
  ⟨(C3_execution_classification crashBinary [("3", case5Src)] "3" case5Src []
      (RunState.mk [] [] []) rfl).1 1 case5Src rfl (by decide),
   (C3_execution_classification raiseBinary [("3", case5Src)] "3" case5Src []
      (RunState.mk [] [] []) rfl).2 "Permission denied" rfl⟩

/-- C4: if execution exits zero but the case has no `output.log` and no
`regression/` subdirectory, the reference artifact set is empty and the
outcome is SKIP — never PASS or FAIL — with no comparison performed and no
diff-log entry. -/
theorem C4_skip_no_references (binary : Entry → ExecOutcome) (d : String) (src t : Entry)
    (hexec : binary src = ExecOutcome.exits 0 t)
    (hout : lookupPath src ["output.log"] = none)
    (hreg : isDirE (childOf src "regression") = false) :
    filesToCheck src = [] ∧
      runCase binary d src src = Except.ok (Outcome.skip, t) ∧
      renderResLine d Outcome.skip = d ++ ": SKIP (No reference logs found)\n" ∧
      renderDiffEntry d Outcome.skip = none := by
  have hfs : filesToCheck src = [] := by
    unfold filesToCheck
    rw [if_neg (show ¬pathExists src ["output.log"] = true by
      unfold pathExists
      rw [hout]
      simp)]
    rw [List.nil_append]
    cases hc : childOf src "regression" with
    | none => rfl
    | some e =>
      cases e with
      | file ls => rfl
      | dir es =>
        rw [hc] at hreg
        simp [isDirE] at hreg
  refine ⟨hfs, ?_, rfl, rfl⟩
  unfold runCase
  rw [hexec]
  dsimp only
  rw [if_pos hfs]
  rw [if_pos (show (0 : Nat) = 0 from rfl)]

/-- Witness for C4: a case directory with only a data file is skipped. -/
theorem C4_witness :
    filesToCheck c4Src = [] ∧
      runCase okBinary "4" c4Src c4Src = Except.ok (Outcome.skip, c4Src) ∧
      renderResLine "4" Outcome.skip = "4" ++ ": SKIP (No reference logs found)\n" ∧
      renderDiffEntry "4" Outcome.skip = none :=
  C4_skip_no_references okBinary "4" c4Src c4Src rfl rfl rfl

/-- C5: the reference artifact set is `output.log` first (when present),
followed by the entries of `regression/` sorted lexicographically
(a permutation of the non-recursive listing), and the comparison loop
records missing files and concatenates per-artifact diffs in exactly this
enumeration order. -/
theorem C5_artifact_enumeration (d : String) (src dest : Entry)
    (es : List (String × Entry)) (r : CmpRes)
    (hreg : childOf src "regression" = some (Entry.dir es))
    (hcmp : compareFiles d src dest (filesToCheck src) = Except.ok r) :
    ∃ names : List String,
      names.Perm (es.map Prod.fst) ∧
      List.Pairwise strLe names ∧
      filesToCheck src =
        (if pathExists src ["output.log"] then [["output.log"]] else []) ++
          names.map (fun f => ["regression", f]) ∧
      r.missing = (filesToCheck src).filter (fun rel => !pathExists dest rel) ∧
      r.diffs = ((filesToCheck src).map (fun rel => perArtifactDiff d src dest rel)).flatten := by
  obtain ⟨h1, h2⟩ := compareFiles_spec d src dest (filesToCheck src) r hcmp
  refine ⟨List.insertionSort strLe (es.map Prod.fst),
    List.perm_insertionSort _ _, List.sorted_insertionSort _ _, ?_, h1, h2⟩
  unfold filesToCheck
  rw [hreg]

/-- Witness for C5: a case with `output.log` plus an unsorted `regression/`
listing; the produced `regression/b.txt` differs. -/
theorem C5_witness :
    ∃ names : List String,
      names.Perm ([("b.txt", Entry.file ["b\n"]),
        ("a.txt", Entry.file ["x\n"])].map Prod.fst) ∧
      List.Pairwise strLe names ∧
      filesToCheck c5Src =
        (if pathExists c5Src ["output.log"] then [["output.log"]] else []) ++
          names.map (fun f => ["regression", f]) ∧
      (CmpRes.mk ([] : List (List String))
          ["--- Reference/7/regression/b.txt", "+++ Result/7/regression/b.txt",
            "@@ -1 +1 @@", "-b\n", "+B\n"]).missing =
        (filesToCheck c5Src).filter (fun rel => !pathExists c5Dest rel) ∧
      (CmpRes.mk ([] : List (List String))
          ["--- Reference/7/regression/b.txt", "+++ Result/7/regression/b.txt",
            "@@ -1 +1 @@", "-b\n", "+B\n"]).diffs =
        ((filesToCheck c5Src).map (fun rel => perArtifactDiff "7" c5Src c5Dest rel)).flatten :=
  C5_artifact_enumeration "7" c5Src c5Dest
    [("b.txt", Entry.file ["b\n"]), ("a.txt", Entry.file ["x\n"])]
    (CmpRes.mk []
      ["--- Reference/7/regression/b.txt", "+++ Result/7/regression/b.txt",
        "@@ -1 +1 @@", "-b\n", "+B\n"])
    rfl rfl

/-- C6: staging recreates `results-root/<id>` as an exact copy of the case's
source tree — any previous working directory for that id is discarded — and
leaves every other case's working directory untouched.  Staging and
execution act only on the results root: the source tree is passed through
read-only in the model, so the source directory is never mutated. -/
theorem C6_staging_isolated (results : List (String × Entry)) (d : String) (src : Entry) :
    lookupEntry (stageCase results d src) d = some src ∧
    ∀ d', d' ≠ d → lookupEntry (stageCase results d src) d' = lookupEntry results d' :=
  ⟨stage_lookup results d src, fun d' h => stage_lookup_other results d src d' h⟩

/-- Witness for C6: restaging case "1" over stale results replaces its tree
and leaves case "2" alone. -/
theorem C6_witness :
    lookupEntry (stageCase [("1", Entry.dir []), ("2", c4Src)] "1" case5Src) "1" =
      some case5Src ∧
    lookupEntry (stageCase [("1", Entry.dir []), ("2", c4Src)] "1" case5Src) "2" =
      lookupEntry [("1", Entry.dir []), ("2", c4Src)] "2" :=
  ⟨(C6_staging_isolated [("1", Entry.dir []), ("2", c4Src)] "1" case5Src).1,
   (C6_staging_isolated [("1", Entry.dir []), ("2", c4Src)] "1" case5Src).2 "2" (by decide)⟩

/-- C7: for an artifact present in both trees, the recorded diff is the
three-line-context unified diff of reference lines against produced lines
tagged `Reference/<id>/<rel>` and `Result/<id>/<rel>`; concretely, case "5"
with reference line "ok\n" and produced line "fail\n" is a FAIL whose diff
record shows `-ok` / `+fail` under those two tags. -/
theorem C7_diff_record :
    (∀ (d : String) (src dest : Entry) (rel : List String) (ref new : List String),
      pathExists dest rel →
      readLines src rel = Except.ok ref → readLines dest rel = Except.ok new →
      perArtifactDiff d src dest rel =
        unifiedDiff ("Reference/" ++ d ++ "/" ++ pathStr rel)
          ("Result/" ++ d ++ "/" ++ pathStr rel) ref new) ∧
    runCase case5Binary "5" case5Src case5Src =
      Except.ok (Outcome.fail []
        ["--- Reference/5/output.log", "+++ Result/5/output.log", "@@ -1 +1 @@",
          "-ok\n", "+fail\n"], case5Out) := by
  constructor
  · intro d src dest rel ref new hp hr hn
    unfold perArtifactDiff
    rw [if_pos hp, hr, hn]
  · rfl

/-- Witness for C7: the tagging equation evaluated on the concrete case. -/
theorem C7_witness :
    perArtifactDiff "5" case5Src case5Out ["output.log"] =
      unifiedDiff ("Reference/" ++ "5" ++ "/" ++ pathStr ["output.log"])
        ("Result/" ++ "5" ++ "/" ++ pathStr ["output.log"]) ["ok\n"] ["fail\n"] :=
  C7_diff_record.1 "5" case5Src case5Out ["output.log"] ["ok\n"] ["fail\n"] rfl rfl rfl

/-- C8: a missing source directory is the fatal `SourceUnavailable`
condition, while an existing source directory with no all-digit entries
yields a successful no-op run with no case outcomes written. -/
theorem C8_discovery_failure (binary : Entry → ExecOutcome) (res0 : List (String × Entry)) :
    runHarness binary none res0 = Except.error "SourceUnavailable" ∧
    ∀ entries : List (String × Entry), (entries.map Prod.fst).filter pyIsDigit = [] →
      runHarness binary (some entries) res0 = Except.ok (RunState.mk res0 [] []) := by
  constructor
  · rfl
  · intro entries h
    rw [runHarness]
    rw [show discover (entries.map Prod.fst) = [] by
      unfold discover
      rw [h]
      rfl]
    rw [runCases]

/-- Witness for C8: a source listing with only non-numeric entries. -/
theorem C8_witness :
    runHarness crashBinary none [] = Except.error "SourceUnavailable" ∧
    runHarness crashBinary (some [("README", Entry.dir [])]) [] =
      Except.ok (RunState.mk [] [] []) :=
  ⟨(C8_discovery_failure crashBinary []).1,
   (C8_discovery_failure crashBinary []).2 [("README", Entry.dir [])] (by decide)⟩

/-- C9: with the same binary (a function, hence deterministic) and the same
source listing, the produced report — summary lines and diff log — does not
depend on the initial contents of the results root; in particular two
consecutive runs produce identical reports. -/
theorem C9_report_idempotent (binary : Entry → ExecOutcome)
    (srcListing : Option (List (String × Entry))) (res0 res0' : List (String × Entry)) :
    reportOf (runHarness binary srcListing res0) =
      reportOf (runHarness binary srcListing res0') := by
  cases srcListing with
  | none => rfl
  | some entries =>
    rw [runHarness, runHarness]
    exact runCases_report_indep binary entries _ _ _ rfl rfl

/-- C10: if a listed reference artifact exists in the working directory but
cannot be opened as a text file — e.g. the `regression/` enumeration added a
subdirectory — the exception is unhandled: the case gets no outcome and the
whole run aborts, processing no further cases. -/
theorem C10_unreadable_artifact_aborts (binary : Entry → ExecOutcome)
    (srcRoot : List (String × Entry)) (d : String) (src t : Entry)
    (ds : List String) (st : RunState)
    (hlook : lookupEntry srcRoot d = some src)
    (hexec : binary src = ExecOutcome.exits 0 t)
    (rel : List String) (hmem : rel ∈ filesToCheck src)
    (hp : pathExists t rel)
    (es : List (String × Entry)) (hdir : lookupPath src rel = some (Entry.dir es)) :
    (∃ e, runCase binary d src src = Except.error e) ∧
    (∃ e, runCases binary srcRoot (d :: ds) st = Except.error e) := by
  have hbad : ∀ ls, readLines src rel ≠ Except.ok ls := by
    intro ls
    unfold readLines
    rw [hdir]
    simp
  obtain ⟨e, he⟩ := compareFiles_error d src t (filesToCheck src) rel hmem hp hbad
  have hfs : filesToCheck src ≠ [] := by
    intro h0
    rw [h0] at hmem
    simp at hmem
  have hrc : runCase binary d src src = Except.error e := by
    unfold runCase
    rw [hexec]
    dsimp only
    rw [if_neg hfs, he]
    rw [if_pos (show (0 : Nat) = 0 from rfl)]
  refine ⟨⟨e, hrc⟩, ⟨e, ?_⟩⟩
  rw [runCases, hlook]
  simp only [stage_lookup]
  rw [hrc]

/-- Witness for C10: a `regression/` subdirectory containing a directory
entry aborts the run. -/
theorem C10_witness :
    (∃ e, runCase okBinary "9" c10Src c10Src = Except.error e) ∧
    (∃ e, runCases okBinary [("9", c10Src)] ["9", "11"] (RunState.mk [] [] []) =
      Except.error e) :=
  C10_unreadable_artifact_aborts okBinary [("9", c10Src)] "9" c10Src c10Src ["11"]
    (RunState.mk [] [] []) rfl rfl ["regression", "sub"] (by decide) rfl [] rfl
